import Mathlib

/-!
# Verification of the competitor / keyword discovery engine

A shallow embedding of the discovery & ranking engine of the doctorfizz-api
repository (`src/app/api/competitors/suggest/route.js` and
`src/app/api/keywords/suggest/route.js`), together with proofs of the
testable properties stated in its design specification.

JS strings are modelled as lists of ASCII characters (`Str`); JS `Map`s as
association lists preserving insertion order; JS numbers as `ℕ`, `ℤ`, or `ℚ`
as appropriate for the quantities involved (integer positions, millisecond
timestamps, fractional scores).  Fallible operations return `Option` or the
empty string where the source uses falsy sentinel values.  The two pieces of
behaviour that are not repository code — the platform's WHATWG URL parser and
the `tldts` public-suffix lookup — are modelled explicitly and marked as such
in their doc strings.
-/

namespace DoctorFizz

/-- JS strings, modelled as lists of characters. -/
abbrev Str := List Char

/-! ## Character and string helpers -/

/-- ASCII lower-casing of one character (model of JS `toLowerCase` on the
ASCII range; non-letters are fixed). -/
def lowerTable : List (Char × Char) :=
  [('A', 'a'), ('B', 'b'), ('C', 'c'), ('D', 'd'), ('E', 'e'), ('F', 'f'),
   ('G', 'g'), ('H', 'h'), ('I', 'i'), ('J', 'j'), ('K', 'k'), ('L', 'l'),
   ('M', 'm'), ('N', 'n'), ('O', 'o'), ('P', 'p'), ('Q', 'q'), ('R', 'r'),
   ('S', 's'), ('T', 't'), ('U', 'u'), ('V', 'v'), ('W', 'w'), ('X', 'x'),
   ('Y', 'y'), ('Z', 'z')]

def lowerChar (c : Char) : Char :=
  match lowerTable.find? (fun p => p.1 == c) with
  | some p => p.2
  | none => c

/-- `String.prototype.toLowerCase` (ASCII model). -/
def lowerStr (s : Str) : Str := s.map lowerChar

/-- Whitespace characters removed by JS `trim`. -/
def isWsChar (c : Char) : Bool := c == ' ' || c == '\t' || c == '\n' || c == '\r'

/-- `String.prototype.trim`. -/
def trimStr (s : Str) : Str :=
  ((s.dropWhile isWsChar).reverse.dropWhile isWsChar).reverse

/-- JS `String.prototype.split(sep)` (single-character separator):
`"".split(".") = [""]`, `"a.".split(".") = ["a",""]`. -/
def dsplit (sep : Char) : Str → List Str
  | [] => [[]]
  | c :: rest =>
      let r := dsplit sep rest
      if c = sep then [] :: r
      else (c :: r.headI) :: r.tail

/-- JS `Array.prototype.join(sep)` (single-character separator). -/
def joinSep (sep : Char) : List Str → Str
  | [] => []
  | [l] => l
  | l :: ls => l ++ sep :: joinSep sep ls

/-- Coerce a list of Lean string literals to the model. -/
def strs (l : List String) : List Str := l.map String.data

/-- Deduplication keeping the first occurrence, with the set of already
seen entries accumulated (the behaviour of iterating a JS `Set`). -/
def dedupFirstAux (seen : List Str) : List Str → List Str
  | [] => []
  | x :: rest =>
      if x ∈ seen then dedupFirstAux seen rest
      else x :: dedupFirstAux (x :: seen) rest

/-- Deduplicate keeping the first occurrence of each entry. -/
def dedupFirst (l : List Str) : List Str := dedupFirstAux [] l

/-- `uniq(arr)` from both routes. -/
def uniqJS (arr : List Str) : List Str :=
  dedupFirst (arr.filter (fun x => !x.isEmpty))

/-! ## Domain canonicalizer

From `src/app/api/competitors/suggest/route.js` lines 32-146 (the keywords
route's variants are `kwGetRootHost` below), with the platform URL parser
and the `tldts` public-suffix lookup modelled as described on `urlHostname`
and `getDomainModel`. -/

/-- Characters the modelled URL parser accepts inside a hostname. -/
def validHostChar (c : Char) : Bool :=
  ('a' ≤ c && c ≤ 'z') || ('0' ≤ c && c ≤ '9') || c == '-' || c == '_' || c == '.'

/-- Characters allowed inside one label of a well-formed hostname. -/
def hostLabelChar (c : Char) : Bool :=
  ('a' ≤ c && c ≤ 'z') || ('0' ≤ c && c ≤ '9') || c == '-' || c == '_'

/-- Modelled from the spec: hostname extraction of the platform's WHATWG
`new URL(s)` parser (not part of src/), restricted to ASCII inputs: the
authority is the segment after the scheme up to the first `/`, `?` or `#`;
the host is the part of the authority after the last `@` and before the
first `:`; parsing fails (`none`, i.e. the constructor throws) when the
host is empty or contains a character outside the hostname alphabet, or
when a nonempty port is not all digits. -/
def urlHostname (s : Str) : Option Str :=
  let rest := if ("https://".data).isPrefixOf s then s.drop 8 else s.drop 7
  let auth := rest.takeWhile (fun c => !(c == '/' || c == '?' || c == '#'))
  let hostport := (auth.reverse.takeWhile (fun c => c != '@')).reverse
  let host := hostport.takeWhile (fun c => c != ':')
  let port := (hostport.dropWhile (fun c => c != ':')).drop 1
  if host ≠ [] ∧ host.all validHostChar ∧ port.all Char.isDigit then some host
  else none

/-- `s.replace(/^https?:\/\//, "")`. -/
def dropScheme (s : Str) : Str :=
  if ("https://".data).isPrefixOf s then s.drop 8
  else if ("http://".data).isPrefixOf s then s.drop 7
  else s

/-- `s.replace(/^www\./, "")`. -/
def stripWWW (s : Str) : Str :=
  if ("www.".data).isPrefixOf s then s.drop 4 else s

/-- `/^https?:\/\//.test(s)`. -/
def hasScheme (s : Str) : Bool :=
  ("http://".data).isPrefixOf s || ("https://".data).isPrefixOf s

/-- `normalizeHost` (identical in both routes): trim, lower-case, prepend
`https://` when no scheme is present, take the URL hostname (falling back to
stripping the scheme textually and taking the segment before the first `/`),
and strip one leading `www.`.  The JS function returns `null` for a falsy
input; `null` and `""` are indistinguishable downstream (all callers use
falsy checks), so the model returns `[]` in both cases. -/
def normalizeHost (input : Str) : Str :=
  if input = [] then []
  else
    let s0 := lowerStr (trimStr input)
    let s1 := if hasScheme s0 then s0 else "https://".data ++ s0
    match urlHostname s1 with
    | some h => stripWWW h
    | none => stripWWW ((dropScheme s1).takeWhile (fun c => c != '/'))

/-- The hard-coded two-label ccTLD table of the naive fallback. -/
def twoPartCctlds : List Str :=
  strs ["co.in", "org.in", "net.in", "ac.in", "co.uk", "org.uk"]

/-- `naiveRoot` — fallback-only root derivation: keep the last two labels,
or the last three when the last two form a known two-label ccTLD. -/
def naiveRoot (host : Str) : Str :=
  if host = [] then []
  else
    let parts := dsplit '.' host
    if parts.length ≤ 2 then host
    else
      let last2 := joinSep '.' (parts.drop (parts.length - 2))
      let last3 := joinSep '.' (parts.drop (parts.length - 3))
      if twoPartCctlds.contains last2 ∧ 3 ≤ parts.length then last3 else last2

/-- Modelled from the spec: the multi-label public suffixes known to the
"public-suffix-aware lookup" (the `tldts` dependency, not part of src/).
A sample of the public suffix list; single-label suffixes need not be
listed because the default rule treats an unmatched trailing label as a
public suffix. -/
def pslMultiLabel : List (List Str) :=
  [["co", "uk"], ["org", "uk"], ["co", "in"], ["org", "in"],
   ["net", "in"], ["ac", "in"], ["com", "au"]].map (fun e => e.map String.data)

/-- All labels of a host are nonempty and drawn from the hostname alphabet. -/
def validHostLabels (host : Str) : Bool :=
  !host.isEmpty && (dsplit '.' host).all (fun l => !l.isEmpty && l.all hostLabelChar)

/-- Length (in labels) of the longest public suffix of `parts`: the longest
matching multi-label rule, or 1 by the default rule. -/
def suffixLen (parts : List Str) : ℕ :=
  (pslMultiLabel.filter (fun e => e.isSuffixOf parts)).foldl
    (fun acc e => max acc e.length) 1

/-- Modelled from the spec: `getDomain` of `tldts` (not part of src/) — the
registrable domain (longest public suffix plus one label), `none` when the
host is not a well-formed hostname or is itself a public suffix. -/
def getDomainModel (host : Str) : Option Str :=
  if validHostLabels host then
    let parts := dsplit '.' host
    let k := suffixLen parts
    if parts.length ≤ k then none
    else some (joinSep '.' (parts.drop (parts.length - (k + 1))))
  else none

/-- `d || naiveRoot(host)` — registrable domain with naive fallback. -/
def rootCore (host : Str) : Str :=
  match getDomainModel host with
  | some d => d
  | none => naiveRoot host

/-- `getRootHost` of the competitors route: normalize, then the
public-suffix-aware registrable domain with `naiveRoot` as fallback. -/
def getRootHost (hostOrUrl : Str) : Str :=
  let host := normalizeHost hostOrUrl
  if host = [] then []
  else rootCore host

/-- `getRootHost` of the keywords route (purely naive: keep the last two
labels of a host with more than two labels). -/
def kwGetRootHost (host : Str) : Str :=
  if host = [] then []
  else
    let parts := dsplit '.' host
    if parts.length ≤ 2 then host
    else joinSep '.' (parts.drop (parts.length - 2))

/-- The composite used by the keywords route on its input:
`getRootHost(normalizeHost(domain))`. -/
def kwRootDomain (domain : Str) : Str := kwGetRootHost (normalizeHost domain)

/-- `normalizeCandidateDomain`: collapse a raw candidate to its root host. -/
def normalizeCandidateDomain (d : Str) : Str :=
  let host := normalizeHost d
  if host = [] then [] else getRootHost host

/-! ## Self-domain check and noise filter -/

/-- `BLOCK_DOMAINS` (competitors route lines 151-166). -/
def BLOCK_DOMAINS : List Str :=
  strs ["wikipedia.org", "reddit.com", "quora.com", "medium.com",
        "pinterest.com", "github.com", "stackoverflow.com", "play.google.com",
        "apps.apple.com", "facebook.com", "instagram.com", "linkedin.com",
        "twitter.com", "x.com"]

/-- `isBlockedDomain` — falsy domains are blocked, then the block list. -/
def isBlockedDomain (domain : Str) : Bool :=
  if domain.isEmpty then true
  else BLOCK_DOMAINS.contains (lowerStr domain)

/-- `isSelfDomain(candidateHost, rootHost)` (competitors route lines
126-146): same host, subdomain of the target host, same root, or the
brand-prefixed `about.<brand>` pattern. -/
def isSelfDomain (candidateHost rootHost : Str) : Bool :=
  let cHost := normalizeHost candidateHost
  let rHost := normalizeHost rootHost
  if cHost.isEmpty || rHost.isEmpty then false
  else
    let cRoot := getRootHost cHost
    let rRoot := getRootHost rHost
    if cHost == rHost || ('.' :: rHost).isSuffixOf cHost then true
    else if !cRoot.isEmpty && !rRoot.isEmpty && cRoot == rRoot then true
    else
      let brand := (dsplit '.' rRoot).headI
      if !brand.isEmpty &&
          (cHost == "about.".data ++ brand || cRoot == "about.".data ++ brand) then true
      else false

/-- The first label of the target's RootDomain (the spec's `<brand>`). -/
def brandOf (rootHost : Str) : Str := (dsplit '.' (getRootHost rootHost)).headI

/-- The self-domain predicate as the specification words it: the candidate
equals the target Host, is a subdomain of the target RootDomain, has the
same RootDomain, or matches the brand-prefixed `about.<brand>` pattern
(as host or as root). -/
def selfSpecification (candidateHost rootHost : Str) : Prop :=
  candidateHost = rootHost
  ∨ ('.' :: getRootHost rootHost) <:+ candidateHost
  ∨ getRootHost candidateHost = getRootHost rootHost
  ∨ candidateHost = "about.".data ++ brandOf rootHost
  ∨ getRootHost candidateHost = "about.".data ++ brandOf rootHost

instance (c r : Str) : Decidable (selfSpecification c r) := by
  unfold selfSpecification; infer_instance

/-! ## Competitor ranking (`rankCompetitors`, competitors route lines 463-496) -/

/-- One `(domain, probe, position)` aggregation row. -/
structure ResultRow where
  domain : Str
  kw : Str
  pos : ℕ
deriving Repr, DecidableEq

/-- `Number(r.pos) || 10` for a natural-number position. -/
def posVal (p : ℕ) : ℕ := if p = 0 then 10 else p

/-- Per-domain aggregation record (`{domain, hits, posSum, kws}`). -/
structure CompetitorAgg where
  domain : Str
  hits : ℕ
  posSum : ℕ
  kws : List Str
deriving Repr, DecidableEq

/-- JS `Set.prototype.add`: append when absent. -/
def addKw (kws : List Str) (k : Str) : List Str :=
  if kws.contains k then kws else kws ++ [k]

/-- One iteration of the aggregation loop: skip falsy raw domains, falsy
roots, the excluded root and blocked domains, then update the per-root
record in place (JS `Map` update keeps insertion order). -/
def rankStep (excludeRoot : Str) (m : List CompetitorAgg) (r : ResultRow) :
    List CompetitorAgg :=
  if r.domain = [] then m
  else
    let root := normalizeCandidateDomain r.domain
    if root = [] then m
    else if excludeRoot ≠ [] ∧ root = excludeRoot then m
    else if isBlockedDomain root then m
    else if m.any (fun x => x.domain == root) then
      m.map (fun x =>
        if x.domain == root then
          { x with hits := x.hits + 1, posSum := x.posSum + posVal r.pos,
                   kws := addKw x.kws r.kw }
        else x)
    else m ++ [{ domain := root, hits := 1, posSum := posVal r.pos, kws := [r.kw] }]

/-- `uniqueKwCount * 100 - avgPos * 6` with `avgPos = hits ? posSum/hits : 99`. -/
def aggScore (x : CompetitorAgg) : ℚ :=
  let avgPos : ℚ := if x.hits = 0 then 99 else (x.posSum : ℚ) / (x.hits : ℚ)
  (x.kws.length : ℚ) * 100 - avgPos * 6

/-- Stable insertion of one scored entry into a descending list. -/
def insertDesc (p : Str × ℚ) : List (Str × ℚ) → List (Str × ℚ)
  | [] => [p]
  | q :: rest => if p.2 < q.2 then q :: insertDesc p rest else p :: q :: rest

/-- Stable descending sort by score (model of the ES2019+ stable
`Array.prototype.sort((a, b) => b.score - a.score)`). -/
def sortDesc : List (Str × ℚ) → List (Str × ℚ)
  | [] => []
  | p :: rest => insertDesc p (sortDesc rest)

/-- `rankCompetitors(rawRows, {excludeRoot, max})`. -/
def rankCompetitors (rawRows : List ResultRow) (excludeRoot : Str) (maxN : ℕ) :
    List Str :=
  let aggs := rawRows.foldl (rankStep excludeRoot) []
  let scored := aggs.map (fun x => (x.domain, aggScore x))
  ((sortDesc scored).take maxN).map Prod.fst

/-- Rows that survive the aggregation loop's skip conditions. -/
def rowKept (excludeRoot : Str) (r : ResultRow) : Bool :=
  !r.domain.isEmpty &&
  (let root := normalizeCandidateDomain r.domain
   !root.isEmpty && !(!excludeRoot.isEmpty && root == excludeRoot) &&
   !isBlockedDomain root)

/-- All rows of one candidate root domain (specification side). -/
def rowsForDomain (excludeRoot : Str) (rows : List ResultRow) (d : Str) :
    List ResultRow :=
  (rows.filter (rowKept excludeRoot)).filter
    (fun r => normalizeCandidateDomain r.domain == d)

/-- `uniqueProbeCount`: the number of distinct probes hitting `d`. -/
def uniqueProbeCount (excludeRoot : Str) (rows : List ResultRow) (d : Str) : ℕ :=
  (dedupFirst ((rowsForDomain excludeRoot rows d).map (fun r => r.kw))).length

/-- `avgPosition`: the mean position over all of `d`'s rows. -/
def avgPosition (excludeRoot : Str) (rows : List ResultRow) (d : Str) : ℚ :=
  let rs := rowsForDomain excludeRoot rows d
  if rs.length = 0 then 99
  else (((rs.map (fun r => posVal r.pos)).sum : ℕ) : ℚ) / (rs.length : ℚ)

/-- `score = uniqueProbeCount * 100 - avgPosition * 6` (specification side). -/
def competitorScore (excludeRoot : Str) (rows : List ResultRow) (d : Str) : ℚ :=
  (uniqueProbeCount excludeRoot rows d : ℚ) * 100 - avgPosition excludeRoot rows d * 6

/-- First-appearance order of the candidate root domains of the kept rows
(the key order of the aggregation `Map`). -/
def rootsList (excludeRoot : Str) (rows : List ResultRow) : List Str :=
  dedupFirst ((rows.filter (rowKept excludeRoot)).map
    (fun r => normalizeCandidateDomain r.domain))

/-- The aggregation record of one root domain, computed from the rows
directly (specification side). -/
def aggSpec (excludeRoot : Str) (rows : List ResultRow) (d : Str) : CompetitorAgg :=
  { domain := d,
    hits := (rowsForDomain excludeRoot rows d).length,
    posSum := ((rowsForDomain excludeRoot rows d).map (fun r => posVal r.pos)).sum,
    kws := dedupFirst ((rowsForDomain excludeRoot rows d).map (fun r => r.kw)) }

/-- The spec's §8 end-to-end scenario: probe A returns rival1, rival2,
rival1 at positions 1, 2, 3; probe B returns rival2 at position 1. -/
def scenarioRows : List ResultRow :=
  [⟨"rival1.com".data, "probe a".data, 1⟩,
   ⟨"rival2.com".data, "probe a".data, 2⟩,
   ⟨"rival1.com".data, "probe a".data, 3⟩,
   ⟨"rival2.com".data, "probe b".data, 1⟩]

/-! ## Result padding (`fillToN`, competitors route lines 539-550 and the
POST composition at lines 664-674) -/

/-- The fill loop: walk the pool, stop at `n` entries, skip falsy keys and
case-insensitive duplicates (the `seen` set always equals the lower-cased
members of `out`, since entries are added to both together). -/
def fillGo (n : ℕ) : List Str → List Str → List Str
  | [], out => out
  | p :: ps, out =>
      if n ≤ out.length then out
      else
        let key := lowerStr p
        if key = [] ∨ key ∈ out.map lowerStr then fillGo n ps out
        else fillGo n ps (out ++ [p])

/-- `fillToN(list, pool, n)`. -/
def fillToN (list pool : List Str) (n : ℕ) : List Str :=
  (fillGo n pool list).take n

/-- No two entries of the list agree case-insensitively. -/
def ciNodup (l : List Str) : Prop :=
  l.Pairwise (fun a b => lowerStr a ≠ lowerStr b)

instance (l : List Str) : Decidable (ciNodup l) := by
  unfold ciNodup
  infer_instance

/-- The POST handler's padding composition (lines 664-674): take 4 of each
filtered list, fill each from the sibling pool, then from its own pool. -/
def paddedLists (platformFiltered searchFiltered : List Str) :
    List Str × List Str :=
  let business0 := platformFiltered.take 4
  let search0 := searchFiltered.take 4
  let business1 := fillToN business0 searchFiltered 4
  let search1 := fillToN search0 platformFiltered 4
  let business2 := fillToN business1 platformFiltered 4
  let search2 := fillToN search1 searchFiltered 4
  (business2, search2)

/-! ## Intent classifier (`classifyRole` / `filterByIntent`, competitors
route lines 286-357 and 503-532) -/

/-- The coarse role labels assigned by the classifier. -/
inductive Role where
  | search_engine
  | ai_answer_engine
  | ecommerce
  | payments
  | dictionary
  | music
  | maps
  | support_portal
  | social
  | other
deriving Repr, DecidableEq

/-- JS `String.prototype.includes`: `w` occurs contiguously in `t`. -/
def isSubstr (w : Str) : Str → Bool
  | [] => w.isEmpty
  | c :: rest => w.isPrefixOf (c :: rest) || isSubstr w rest

/-- `has(...words)`: some word is a substring of the lowercased blob. -/
def textHas (t : Str) (ws : List Str) : Bool :=
  ws.any (fun w => isSubstr w t)

/-- `classifyRole(text)`: ordered substring matching against fixed term
sets, first match wins. -/
def classifyRole (text : Str) : Role :=
  let t := lowerStr text
  if textHas t (strs ["search the web", "web search", "search engine",
        "search results", "private search"]) ||
     textHas t (strs ["duckduckgo", "brave search", "bing search", "yandex",
        "ecosia"]) then .search_engine
  else if textHas t (strs ["answer engine", "ai answers", "ask anything",
        "powered by ai", "search and answer"]) ||
     textHas t (strs ["perplexity", "you.com", "and you can ask", "ai search"]) then
    .ai_answer_engine
  else if textHas t (strs ["add to cart", "checkout", "shop", "store",
        "buy now", "shipping"]) then .ecommerce
  else if textHas t (strs ["payments", "accept payments", "pos", "invoices",
        "merchant"]) then .payments
  else if textHas t (strs ["dictionary", "definition", "thesaurus"]) then .dictionary
  else if textHas t (strs ["listen", "music", "playlist", "podcasts"]) then .music
  else if textHas t (strs ["maps", "directions", "route planner",
        "navigation"]) then .maps
  else if textHas t (strs ["sign in", "log in", "create account"]) &&
     textHas t (strs ["support", "help center"]) then .support_portal
  else if textHas t (strs ["social network", "friends", "followers", "posts"]) then
    .social
  else .other

/-- `filterByIntent(candidates, expectedIntent, rootHost)`: the homepage
fetch (`fetchWithTimeout`, which returns `""` on every failure and never
throws) and the title/description/h1 extraction are external effects,
passed as oracles `fetchPage` and `extractText`. -/
def filterByIntent (fetchPage extractText : Str → Str) (candidates : List Str)
    (expectedIntent : Str) (rootHost : Str) : List Str :=
  match candidates with
  | [] => []
  | d :: rest =>
      let out := filterByIntent fetchPage extractText rest expectedIntent rootHost
      if d.isEmpty then out
      else if isSelfDomain d rootHost then out
      else if isBlockedDomain d then out
      else
        let html := fetchPage ("https://".data ++ d)
        if html.isEmpty then out
        else
          let role := classifyRole (extractText html)
          if expectedIntent = "search_engine".data then
            if role = .search_engine ∨ role = .ai_answer_engine then d :: out else out
          else if role = .dictionary ∨ role = .music ∨ role = .payments then out
          else if role = .support_portal then out
          else d :: out

/-- The admission predicate of `filterByIntent` for one candidate. -/
def intentAdmits (fetchPage extractText : Str → Str) (expectedIntent rootHost d : Str) :
    Prop :=
  ¬d.isEmpty = true ∧ ¬isSelfDomain d rootHost = true ∧ ¬isBlockedDomain d = true ∧
  ¬(fetchPage ("https://".data ++ d)).isEmpty = true ∧
  (if expectedIntent = "search_engine".data then
     classifyRole (extractText (fetchPage ("https://".data ++ d))) = .search_engine ∨
     classifyRole (extractText (fetchPage ("https://".data ++ d))) = .ai_answer_engine
   else
     ¬classifyRole (extractText (fetchPage ("https://".data ++ d))) = .dictionary ∧
     ¬classifyRole (extractText (fetchPage ("https://".data ++ d))) = .music ∧
     ¬classifyRole (extractText (fetchPage ("https://".data ++ d))) = .payments ∧
     ¬classifyRole (extractText (fetchPage ("https://".data ++ d))) = .support_portal)

instance (fetchPage extractText : Str → Str) (e r d : Str) :
    Decidable (intentAdmits fetchPage extractText e r d) := by
  unfold intentAdmits; infer_instance

/-! ## Keyword tokenization, similarity and final selection
(keywords route lines 75-227 and 514-556, POST lines 762-782) -/

/-- ASCII alphanumeric (model of the Unicode `\p{L}\p{N}` class on the
ASCII range, applied after lower-casing). -/
def isAlnumChar (c : Char) : Bool :=
  ('a' ≤ c && c ≤ 'z') || ('0' ≤ c && c ≤ '9')

/-- `tokenizeKW(raw)`: lower-case, replace non-alphanumerics by spaces,
split on spaces, drop empty tokens (whitespace collapsing and trimming are
absorbed by the empty-token filter). -/
def tokenizeKW (raw : Str) : List Str :=
  (dsplit ' ' ((lowerStr raw).map (fun c => if isAlnumChar c then c else ' '))).filter
    (fun t => !t.isEmpty)

/-- `GENERIC_TOKENS` (keywords route lines 143-167). -/
def GENERIC_TOKENS : List Str :=
  strs ["seo", "web", "website", "marketing", "business", "digital", "online",
        "media", "social", "strategy", "services", "service", "solutions",
        "company", "agency", "agencies", "brand", "branding", "growth",
        "management", "platform", "tools", "tool"]

/-- `QUERY_MODIFIERS` (keywords route lines 96-126). -/
def QUERY_MODIFIERS : List Str :=
  strs ["meaning", "means", "definition", "define", "example", "examples",
        "pdf", "ppt", "doc", "notes", "mcq", "quiz", "question", "questions",
        "near", "best", "top", "latest", "new", "your", "free", "download",
        "template", "guide", "how", "what", "why", "when", "where"]

/-- `LANGUAGE_MODIFIERS` (keywords route lines 128-140). -/
def LANGUAGE_MODIFIERS : List Str :=
  strs ["hindi", "marathi", "urdu", "tamil", "telugu", "kannada", "malayalam",
        "gujarati", "punjabi", "bengali", "english"]

/-- The stop-word list hard-coded inside `isGoodToken`. -/
def stopJunkWords : List Str :=
  strs ["the", "a", "an", "and", "or", "to", "of", "in", "for", "with", "on", "by"]

/-- `isGoodToken(t)`. -/
def isGoodToken (t : Str) : Bool :=
  if t.isEmpty then false
  else if t.length < 2 then false
  else if t.all Char.isDigit then false
  else if QUERY_MODIFIERS.contains t then false
  else if LANGUAGE_MODIFIERS.contains t then false
  else if stopJunkWords.contains t then false
  else true

/-- `jaccardSim(a, b)`: token-set Jaccard similarity.  The quotient
`inter / union` is written `mkRat inter union` (the same rational number,
see `mkRat_eq_natDiv`) so that it evaluates by kernel reduction. -/
def jaccardSim (a b : Str) : ℚ :=
  let A := (tokenizeKW a).toFinset
  let B := (tokenizeKW b).toFinset
  let inter := (A ∩ B).card
  let union := (A ∪ B).card
  if union = 0 then 0 else mkRat inter union

/-- `overlapCount(tokens, tokenSet)`. -/
def overlapCount (tokens : List Str) (tokenSet : Finset Str) : ℕ :=
  tokens.countP (fun t => decide (t ∈ tokenSet))

/-- First (strict) selection pass of `pickFinalKeywords`: stop at `max`
picks, skip exact lower-case duplicates, near-duplicates (Jaccard ≥ 0.62
against any pick), candidates with no seed overlap (when seeds exist), and
early candidates with no specific-seed overlap (when at least 3 specific
seed tokens exist). -/
def pickGoStrict (seedAll seedSpec : Finset Str) (maxN : ℕ) :
    List Str → List Str → List Str
  | [], chosen => chosen
  | kw :: rest, chosen =>
      if maxN ≤ chosen.length then chosen
      else if lowerStr kw ∈ chosen.map lowerStr then
        pickGoStrict seedAll seedSpec maxN rest chosen
      else if chosen.any (fun k => decide (mkRat 62 100 ≤ jaccardSim k kw)) then
        pickGoStrict seedAll seedSpec maxN rest chosen
      else
        let toks := tokenizeKW kw
        if seedAll.card > 0 ∧ overlapCount toks seedAll = 0 then
          pickGoStrict seedAll seedSpec maxN rest chosen
        else if 3 ≤ seedSpec.card ∧ overlapCount toks seedSpec = 0 ∧ chosen.length < 3 then
          pickGoStrict seedAll seedSpec maxN rest chosen
        else pickGoStrict seedAll seedSpec maxN rest (chosen ++ [kw])

/-- Relaxed fill pass of `pickFinalKeywords`: only the exact-duplicate and
Jaccard ≥ 0.7 checks remain. -/
def pickGoRelaxed (maxN : ℕ) : List Str → List Str → List Str
  | [], chosen => chosen
  | kw :: rest, chosen =>
      if maxN ≤ chosen.length then chosen
      else if lowerStr kw ∈ chosen.map lowerStr then pickGoRelaxed maxN rest chosen
      else if chosen.any (fun k => decide (mkRat 7 10 ≤ jaccardSim k kw)) then
        pickGoRelaxed maxN rest chosen
      else pickGoRelaxed maxN rest (chosen ++ [kw])

/-- `pickFinalKeywords({rows, seedTokensAll, seedTokensSpecific, max})`,
with rows projected to their keyword strings (the score field is not read
by the function). -/
def pickFinalKeywords (rows : List Str) (seedAll seedSpec : Finset Str)
    (maxN : ℕ) : List Str :=
  let chosen := pickGoStrict seedAll seedSpec maxN rows []
  let chosen2 := if chosen.length < maxN then pickGoRelaxed maxN rows chosen else chosen
  chosen2.take maxN

/-- The one-word fallback of the POST handler (lines 770-779): single
good-token candidates whose token is not generic. -/
def oneWordFallback (combined : List Str) (limit : ℕ) : List Str :=
  (uniqJS (combined.map (fun kw =>
    let toks := (tokenizeKW kw).filter isGoodToken
    if toks.length = 1 ∧ ¬GENERIC_TOKENS.contains toks.headI then toks.headI
    else []))).take limit

/-- The final keyword list produced by the POST handler (lines 762-782):
the diverse pick, then — only when fewer than 6 were chosen — the one-word
fallback merged in. -/
def finalKeywords (rows combined : List Str) (seedAll seedSpec : Finset Str) :
    List Str :=
  let keywords := pickFinalKeywords rows seedAll seedSpec 8
  if keywords.length < 6 then
    (uniqJS (keywords ++ oneWordFallback combined (8 - keywords.length))).take 8
  else keywords

/-! ## In-memory TTL cache (`cacheGet` / `cacheSet`)

Identical in both routes (competitors route lines 19-30, keywords route
lines 18-29).  JS `Map`s become association lists preserving insertion
order; `Date.now()` timestamps become `ℤ` milliseconds. -/

/-- One stored cache entry. -/
structure CacheEntry (V : Type) where
  value : V
  expiresAt : Int
deriving Repr, DecidableEq

/-- `Map.prototype.get`. -/
def mapGet {β : Type} (m : List (Str × β)) (key : Str) : Option β :=
  (m.find? (fun p => p.1 == key)).map Prod.snd

/-- `Map.prototype.set` — replaces in place, appends when absent. -/
def mapSet {β : Type} (m : List (Str × β)) (key : Str) (v : β) : List (Str × β) :=
  if m.any (fun p => p.1 == key) then
    m.map (fun p => if p.1 == key then (key, v) else p)
  else m ++ [(key, v)]

/-- `Map.prototype.delete`. -/
def mapDelete {β : Type} (m : List (Str × β)) (key : Str) : List (Str × β) :=
  m.filter (fun p => p.1 != key)

/-- `cacheGet(map, key)`: miss when absent; when `Date.now() > expiresAt`
the entry is deleted and the call is a miss; otherwise the value is a hit.
Returns the value together with the updated map. -/
def cacheGet {V : Type} (m : List (Str × CacheEntry V)) (key : Str) (now : Int) :
    Option V × List (Str × CacheEntry V) :=
  match mapGet m key with
  | none => (none, m)
  | some hit =>
      if hit.expiresAt < now then (none, mapDelete m key)
      else (some hit.value, m)

/-- `cacheSet(map, key, value, ttlMs)`. -/
def cacheSet {V : Type} (m : List (Str × CacheEntry V)) (key : Str) (v : V)
    (now ttlMs : Int) : List (Str × CacheEntry V) :=
  mapSet m key ⟨v, now + ttlMs⟩

/-- `TTL_MS = 10 * 60 * 1000` in both routes. -/
def TTL_MS : Int := 10 * 60 * 1000

/-! ## Single-flight coalescing (POST handlers, competitors route lines
574-700, keywords route lines 578-807)

The JS event loop runs each handler without interruption from the cache
lookup through the in-flight registration (there is no `await` between
them), and a settled promise delivers one immutable value to every
awaiter; both facts are reflected by making each of those sections one
atomic transition.  The model instantiates one cache key (requests for
other keys touch disjoint map entries); result values are abstracted to
`ℕ`. -/

/-- Status of one underlying computation. -/
inductive CompStatus where
  | running
  | succeeded (v : ℕ)
  | failed
deriving Repr, DecidableEq

/-- Per-request state: not yet arrived, awaiting computation `c`, finished
with a value, or finished with the computation's rejection. -/
inductive ReqState where
  | pending
  | awaiting (c : ℕ)
  | answered (v : ℕ)
  | errored
deriving Repr, DecidableEq

/-- Global state: cached value, in-flight marker, all computations ever
started (indexed by position), and the requests. -/
structure SFState where
  cache : Option ℕ
  inflight : Option ℕ
  comps : List CompStatus
  reqs : List ReqState
deriving Repr, DecidableEq

/-- Atomic transitions of the coalescing POST handler. -/
inductive SFStep : SFState → SFState → Prop where
  /-- A pending request finds a cached value and returns it. -/
  | hit (s : SFState) (i : ℕ) (v : ℕ) :
      s.reqs[i]? = some .pending → s.cache = some v →
      SFStep s { s with reqs := s.reqs.set i (.answered v) }
  /-- A pending request finds an in-flight computation and awaits it. -/
  | join (s : SFState) (i c : ℕ) :
      s.reqs[i]? = some .pending → s.cache = none → s.inflight = some c →
      SFStep s { s with reqs := s.reqs.set i (.awaiting c) }
  /-- A pending request finds neither cache nor marker: it starts a fresh
  computation and registers the in-flight marker, atomically. -/
  | start (s : SFState) (i : ℕ) :
      s.reqs[i]? = some .pending → s.cache = none → s.inflight = none →
      SFStep s { s with comps := s.comps ++ [.running],
                        inflight := some s.comps.length,
                        reqs := s.reqs.set i (.awaiting s.comps.length) }
  /-- A running computation succeeds: the value is cached, the marker is
  deleted by the `finally` handler, every awaiter receives the value. -/
  | finishOk (s : SFState) (c v : ℕ) :
      s.comps[c]? = some .running →
      SFStep s { cache := some v, inflight := none,
                 comps := s.comps.set c (.succeeded v),
                 reqs := s.reqs.map (fun q => if q = .awaiting c then .answered v else q) }
  /-- A running computation fails: nothing is cached, the marker is still
  deleted by the `finally` handler, every awaiter receives the rejection. -/
  | finishErr (s : SFState) (c : ℕ) :
      s.comps[c]? = some .running →
      SFStep s { cache := s.cache, inflight := none,
                 comps := s.comps.set c .failed,
                 reqs := s.reqs.map (fun q => if q = .awaiting c then .errored else q) }

/-- Reflexive-transitive closure of `SFStep`. -/
inductive SFReaches : SFState → SFState → Prop where
  | refl (s : SFState) : SFReaches s s
  | tail (s t u : SFState) : SFReaches s t → SFStep t u → SFReaches s u

/-- Two concurrent requests for the same key, nothing cached, nothing in
flight, no computation started. -/
def sfInit2 : SFState := ⟨none, none, [], [.pending, .pending]⟩

/-! ## The keywords POST handler skeleton (keywords route lines 558-586)

Only the control flow up to the credential check and the cache/coalescing
entry matters for the claims; the computation pipeline behind it (site
profile fetch, mining, provider calls) is abstracted as `work`. -/

/-- Provider credentials (`process.env.DATAFORSEO_LOGIN` / `_PASSWORD`,
absent variables read as `""`). -/
structure KwEnv where
  dfsLogin : Str
  dfsPass : Str

/-- Externally visible effects of one keywords-route request. -/
inductive KwEffect where
  | cacheRead
  | inflightCheck
  | inflightRegister
  | pipelineRun
deriving Repr, DecidableEq

/-- Shared mutable state of the keywords route. -/
structure KwState where
  cache : List (Str × CacheEntry (List Str))
  inflight : List Str

/-- The POST handler skeleton: reject a missing domain with 400; with
missing credentials return 200 and an empty list immediately (before any
cache or in-flight access); otherwise consult the cache, then the
in-flight table, then run the pipeline and store its result. -/
def kwPOST (env : KwEnv) (st : KwState) (now : Int) (domain : Str)
    (work : KwState → List Str × List KwEffect) :
    (ℕ × List Str) × KwState × List KwEffect :=
  if domain.isEmpty then ((400, []), st, [])
  else
    let host := normalizeHost domain
    let rootHost := kwGetRootHost host
    if env.dfsLogin.isEmpty || env.dfsPass.isEmpty then ((200, []), st, [])
    else
      let res := cacheGet st.cache rootHost now
      match res.1 with
      | some v => ((200, v), { st with cache := res.2 }, [.cacheRead])
      | none =>
          if rootHost ∈ st.inflight then
            ((200, []), { st with cache := res.2 }, [.cacheRead, .inflightCheck])
          else
            let w := work { st with cache := res.2 }
            ((200, w.1),
             { cache := cacheSet res.2 rootHost w.1 now TTL_MS, inflight := st.inflight },
             [.cacheRead, .inflightCheck, .inflightRegister, .pipelineRun] ++ w.2)

/-! # Theorems -/

/-! ## Split / join infrastructure -/

theorem dsplit_ne_nil (sep : Char) (s : Str) : dsplit sep s ≠ [] := by
  cases s with
  | nil => simp [dsplit]
  | cons c rest =>
      simp only [dsplit]
      split <;> simp

theorem dsplit_append_sep (sep : Char) (a b : Str) (ha : sep ∉ a) :
    dsplit sep (a ++ sep :: b) = a :: dsplit sep b := by
  induction a with
  | nil => simp [dsplit]
  | cons c a ih =>
      have hc : c ≠ sep := by rintro rfl; exact ha (List.mem_cons_self _ _)
      have ha' : sep ∉ a := fun h => ha (List.mem_cons_of_mem _ h)
      simp only [List.cons_append, dsplit, List.append_eq]
      rw [ih ha', if_neg hc]
      simp

theorem dsplit_no_sep (sep : Char) (a : Str) (ha : sep ∉ a) :
    dsplit sep a = [a] := by
  induction a with
  | nil => simp [dsplit]
  | cons c a ih =>
      have hc : c ≠ sep := by rintro rfl; exact ha (List.mem_cons_self _ _)
      have ha' : sep ∉ a := fun h => ha (List.mem_cons_of_mem _ h)
      simp [dsplit, ih ha', if_neg hc]

/-- Splitting a joined list of separator-free labels recovers the labels. -/
theorem dsplit_joinSep (sep : Char) (ls : List Str) (h : ∀ l ∈ ls, sep ∉ l)
    (hne : ls ≠ []) : dsplit sep (joinSep sep ls) = ls := by
  induction ls with
  | nil => exact absurd rfl hne
  | cons l ls ih =>
      cases ls with
      | nil =>
          simpa [joinSep] using dsplit_no_sep sep l (h l (List.mem_cons_self _ _))
      | cons l' ls' =>
          have h1 : sep ∉ l := h l (List.mem_cons_self _ _)
          have h2 : ∀ x ∈ l' :: ls', sep ∉ x := fun x hx => h x (List.mem_cons_of_mem _ hx)
          have : joinSep sep (l :: l' :: ls') = l ++ sep :: joinSep sep (l' :: ls') := rfl
          rw [this, dsplit_append_sep sep l _ h1, ih h2 (by simp)]

theorem joinSep_dsplit (sep : Char) (s : Str) : joinSep sep (dsplit sep s) = s := by
  induction s with
  | nil => simp [dsplit, joinSep]
  | cons c rest ih =>
      simp only [dsplit]
      by_cases hc : c = sep
      · simp only [if_pos hc]
        cases h : dsplit sep rest with
        | nil => exact absurd h (dsplit_ne_nil sep rest)
        | cons a as => rw [h] at ih; simp [joinSep, ih, hc]
      · simp only [if_neg hc]
        cases h : dsplit sep rest with
        | nil => exact absurd h (dsplit_ne_nil sep rest)
        | cons a as =>
            rw [h] at ih
            cases as with
            | nil => simpa [joinSep] using congrArg (c :: ·) ih
            | cons b bs =>
                simp only [List.headI, List.tail, joinSep] at ih ⊢
                simp [← ih]

/-! ## C7 — TTL expiry boundary -/

theorem cacheGet_cacheSet_fst {V : Type} (key : Str) (v : V) (T ttl t : Int) :
    (cacheGet (cacheSet [] key v T ttl) key t).1 =
      if T + ttl < t then none else some v := by
  simp only [cacheSet, mapSet, List.any_nil, Bool.false_eq_true, if_false,
    List.nil_append, cacheGet, mapGet, List.find?_singleton, beq_self_eq_true,
    if_pos, Option.map_some']
  split <;> rfl

/-- **C7** (counterexample): the spec's `get` contract says a value is
returned only while `now − storedAt < TTL`, but for an entry stored at
time 0 a get at exactly `TTL_MS` still returns the value although
`TTL_MS − 0 < TTL_MS` fails — the code's expiry test is
`now > expiresAt`, not `now ≥ expiresAt`. -/
theorem C7_counterexample_hit_at_exact_expiry :
    (cacheGet (cacheSet ([] : List (Str × CacheEntry ℕ)) ("k".data) 7 0 TTL_MS)
        ("k".data) TTL_MS).1 = some 7
    ∧ ¬((TTL_MS : Int) - 0 < TTL_MS) := by
  constructor
  · rw [cacheGet_cacheSet_fst]
    norm_num
  · norm_num

/-- **C7** (amended): a cache entry stored at time `T` with the 10-minute
`TTL_MS` is a hit at every `t ≤ T + TTL_MS` — in particular at
`T + TTL_MS − 1` — and a miss at every later `t`, in particular at
`T + TTL_MS + 1`; the hit window is `now − storedAt ≤ TTL` (inclusive at
the boundary), not strictly `<` as the spec's get contract words it. -/
theorem C7_ttl_expiry_boundary :
    ∀ (key : Str) (v : ℕ) (T t : Int),
      (cacheGet (cacheSet [] key v T TTL_MS) key t).1
          = (if t ≤ T + TTL_MS then some v else none)
      ∧ (cacheGet (cacheSet [] key v T TTL_MS) key (T + TTL_MS - 1)).1 = some v
      ∧ (cacheGet (cacheSet [] key v T TTL_MS) key (T + TTL_MS + 1)).1 = none := by
  intro key v T t
  refine ⟨?_, ?_, ?_⟩ <;> rw [cacheGet_cacheSet_fst]
  · split_ifs with h1 h2 h2 <;> first | rfl | omega
  · rw [if_neg (by omega)]
  · rw [if_pos (by omega)]

/-! ## C10 — missing provider credentials -/

/-- **C10**: when the DataForSEO credentials are absent (read as empty
strings), the keywords POST handler returns HTTP 200 with an empty keyword
list, leaves the cache and in-flight state untouched, and performs no
effect at all — no cache read, no in-flight check or registration, and no
pipeline run (site-profile fetch, mining, provider calls) — for any valid
domain, even when a fresh cached result for that domain exists in `st`. -/
theorem C10_missing_credentials_return_empty :
    ∀ (st : KwState) (now : Int) (domain : Str)
      (work : KwState → List Str × List KwEffect),
      domain ≠ [] →
      kwPOST ⟨[], []⟩ st now domain work = ((200, []), st, []) := by
  intro st now domain work h
  have hne : domain.isEmpty = false := by
    cases domain with
    | nil => exact absurd rfl h
    | cons c l => rfl
  simp [kwPOST, hne]

theorem C10_witness :
    ("example.com".data : Str) ≠ [] ∧
    kwPOST ⟨[], []⟩
        ⟨[(("example.com").data, ⟨strs ["cached kw"], 999999⟩)], []⟩ 0
        ("example.com".data) (fun _ => ([], [])) =
      ((200, []), ⟨[(("example.com").data, ⟨strs ["cached kw"], 999999⟩)], []⟩, []) :=
  ⟨by decide, C10_missing_credentials_return_empty _ _ _ _ (by decide)⟩

/-! ## C9 — intent filter admission -/

theorem mem_filterByIntent (f e : Str → Str) (cands : List Str)
    (exp root d : Str) :
    d ∈ filterByIntent f e cands exp root ↔
      d ∈ cands ∧ intentAdmits f e exp root d := by
  induction cands with
  | nil => simp [filterByIntent]
  | cons c rest ih =>
      simp only [filterByIntent]
      split_ifs with h1 h2 h3 h4 h5 h6 h7 h8
      · rw [ih, List.mem_cons]
        constructor
        · exact fun h => ⟨Or.inr h.1, h.2⟩
        · rintro ⟨rfl | hm, ha⟩
          · exact absurd h1 ha.1
          · exact ⟨hm, ha⟩
      · rw [ih, List.mem_cons]
        constructor
        · exact fun h => ⟨Or.inr h.1, h.2⟩
        · rintro ⟨rfl | hm, ha⟩
          · exact absurd h2 ha.2.1
          · exact ⟨hm, ha⟩
      · rw [ih, List.mem_cons]
        constructor
        · exact fun h => ⟨Or.inr h.1, h.2⟩
        · rintro ⟨rfl | hm, ha⟩
          · exact absurd h3 ha.2.2.1
          · exact ⟨hm, ha⟩
      · rw [ih, List.mem_cons]
        constructor
        · exact fun h => ⟨Or.inr h.1, h.2⟩
        · rintro ⟨rfl | hm, ha⟩
          · exact absurd h4 ha.2.2.2.1
          · exact ⟨hm, ha⟩
      · -- search-engine intent, admitted role
        rw [List.mem_cons, ih, List.mem_cons]
        constructor
        · rintro (rfl | ⟨hm, ha⟩)
          · exact ⟨Or.inl rfl, h1, h2, h3, h4, by rw [if_pos h5]; exact h6⟩
          · exact ⟨Or.inr hm, ha⟩
        · rintro ⟨rfl | hm, ha⟩
          · exact Or.inl rfl
          · exact Or.inr ⟨hm, ha⟩
      · -- search-engine intent, rejected role
        rw [ih, List.mem_cons]
        constructor
        · exact fun h => ⟨Or.inr h.1, h.2⟩
        · rintro ⟨rfl | hm, ha⟩
          · have := ha.2.2.2.2
            rw [if_pos h5] at this
            exact absurd this h6
          · exact ⟨hm, ha⟩
      · -- other intent, wrong-vertical role
        rw [ih, List.mem_cons]
        constructor
        · exact fun h => ⟨Or.inr h.1, h.2⟩
        · rintro ⟨rfl | hm, ha⟩
          · have := ha.2.2.2.2
            rw [if_neg h5] at this
            rcases h7 with h | h | h
            · exact absurd h this.1
            · exact absurd h this.2.1
            · exact absurd h this.2.2.1
          · exact ⟨hm, ha⟩
      · -- other intent, support portal
        rw [ih, List.mem_cons]
        constructor
        · exact fun h => ⟨Or.inr h.1, h.2⟩
        · rintro ⟨rfl | hm, ha⟩
          · have := ha.2.2.2.2
            rw [if_neg h5] at this
            exact absurd h8 this.2.2.2
          · exact ⟨hm, ha⟩
      · -- other intent, admitted role
        push_neg at h7
        rw [List.mem_cons, ih, List.mem_cons]
        constructor
        · rintro (rfl | ⟨hm, ha⟩)
          · exact ⟨Or.inl rfl, h1, h2, h3, h4,
              by rw [if_neg h5]; exact ⟨h7.1, h7.2.1, h7.2.2, h8⟩⟩
          · exact ⟨Or.inr hm, ha⟩
        · rintro ⟨rfl | hm, ha⟩
          · exact Or.inl rfl
          · exact Or.inr ⟨hm, ha⟩

/-- **C9**: a candidate survives `filterByIntent` exactly when it is a
nonempty, non-self, non-blocked domain whose homepage fetch returned a
nonempty body and whose classified role passes the intent test — for a
`search_engine` primary intent, exactly the roles `search_engine` and
`ai_answer_engine` are admitted; otherwise exactly the roles `dictionary`,
`music`, `payments` and `support_portal` are rejected and every other role
is admitted.  A candidate whose fetch fails or returns an empty body (the
fetch oracle returns `""` on every failure and never throws) is dropped
silently: it merely fails the admission predicate, all other candidates
are unaffected, and no error value exists in the codomain. -/
theorem C9_intent_filter_admission :
    ∀ (fetchPage extractText : Str → Str) (candidates : List Str)
      (expectedIntent rootHost d : Str),
      d ∈ filterByIntent fetchPage extractText candidates expectedIntent rootHost
        ↔ d ∈ candidates ∧ intentAdmits fetchPage extractText expectedIntent rootHost d := by
  intro f e cands exp root d
  exact mem_filterByIntent f e cands exp root d

/-! ## C5 — diversity of the final keyword list -/

theorem mkRat_eq_natDiv (n : ℤ) (d : ℕ) : mkRat n d = (n : ℚ) / (d : ℚ) := by
  rw [Rat.mkRat_eq_divInt, Rat.divInt_eq_div]
  norm_num

theorem jaccardSim_comm (a b : Str) : jaccardSim a b = jaccardSim b a := by
  simp only [jaccardSim]
  rw [Finset.inter_comm, Finset.union_comm]

theorem all_lt_of_any_jacc_false {chosen : List Str} {kw : Str} {q : ℚ}
    (h : ¬chosen.any (fun k => decide (q ≤ jaccardSim k kw)) = true) :
    ∀ k ∈ chosen, jaccardSim k kw < q := by
  intro k hk
  by_contra hlt
  push_neg at hlt
  exact h (List.any_eq_true.mpr ⟨k, hk, by simpa using hlt⟩)

theorem pickGoStrict_pairwise (seedAll seedSpec : Finset Str) (maxN : ℕ)
    (rows : List Str) :
    ∀ chosen, chosen.Pairwise (fun a b => jaccardSim a b < mkRat 7 10) →
      (pickGoStrict seedAll seedSpec maxN rows chosen).Pairwise
        (fun a b => jaccardSim a b < mkRat 7 10) := by
  induction rows with
  | nil => intro chosen h; simpa [pickGoStrict] using h
  | cons kw rest ih =>
      intro chosen h
      simp only [pickGoStrict]
      split_ifs with h1 h2 h3 h4 h5
      · exact h
      · exact ih _ h
      · exact ih _ h
      · exact ih _ h
      · exact ih _ h
      · refine ih _ ?_
        rw [List.pairwise_append]
        refine ⟨h, List.pairwise_singleton _ _, ?_⟩
        intro a ha b hb
        rw [List.mem_singleton] at hb
        subst hb
        exact lt_of_lt_of_le (all_lt_of_any_jacc_false h3 a ha) (by decide)

theorem pickGoRelaxed_pairwise (maxN : ℕ) (rows : List Str) :
    ∀ chosen, chosen.Pairwise (fun a b => jaccardSim a b < mkRat 7 10) →
      (pickGoRelaxed maxN rows chosen).Pairwise (fun a b => jaccardSim a b < mkRat 7 10) := by
  induction rows with
  | nil => intro chosen h; simpa [pickGoRelaxed] using h
  | cons kw rest ih =>
      intro chosen h
      simp only [pickGoRelaxed]
      split_ifs with h1 h2 h3
      · exact h
      · exact ih _ h
      · exact ih _ h
      · refine ih _ ?_
        rw [List.pairwise_append]
        refine ⟨h, List.pairwise_singleton _ _, ?_⟩
        intro a ha b hb
        rw [List.mem_singleton] at hb
        subst hb
        exact all_lt_of_any_jacc_false h3 a ha

theorem pickFinalKeywords_pairwise (rows : List Str) (seedAll seedSpec : Finset Str)
    (maxN : ℕ) :
    (pickFinalKeywords rows seedAll seedSpec maxN).Pairwise
      (fun a b => jaccardSim a b < mkRat 7 10) := by
  unfold pickFinalKeywords
  have h1 := pickGoStrict_pairwise seedAll seedSpec maxN rows [] List.Pairwise.nil
  refine List.Pairwise.sublist (List.take_sublist _ _) ?_
  split_ifs with hlen
  · exact pickGoRelaxed_pairwise maxN rows _ h1
  · exact h1

theorem dedupFirstAux_sublist (seen : List Str) (l : List Str) :
    List.Sublist (dedupFirstAux seen l) l := by
  induction l generalizing seen with
  | nil => simp [dedupFirstAux]
  | cons x rest ih =>
      rw [dedupFirstAux]
      split_ifs with hx
      · exact (ih seen).trans (List.sublist_cons_self x rest)
      · exact List.Sublist.cons₂ x (ih (x :: seen))

theorem dedupFirst_sublist (l : List Str) : List.Sublist (dedupFirst l) l :=
  dedupFirstAux_sublist [] l

theorem uniqJS_sublist (l : List Str) : List.Sublist (uniqJS l) l :=
  (dedupFirst_sublist _).trans (List.filter_sublist l)

theorem oneWordFallback_eq_nil (combined : List Str) (limit : ℕ)
    (h : ∀ kw ∈ combined, 2 ≤ ((tokenizeKW kw).filter isGoodToken).length) :
    oneWordFallback combined limit = [] := by
  unfold oneWordFallback uniqJS
  have hf : (combined.map (fun kw =>
      let toks := (tokenizeKW kw).filter isGoodToken
      if toks.length = 1 ∧ ¬GENERIC_TOKENS.contains toks.headI then toks.headI
      else [])).filter (fun x => !x.isEmpty) = [] := by
    rw [List.filter_eq_nil_iff]
    intro x hx
    obtain ⟨kw, hkw, hval⟩ := List.mem_map.mp hx
    have h2 := h kw hkw
    dsimp only at hval
    rw [← hval]
    split_ifs with hc
    · omega
    · simp
  rw [hf]
  simp [dedupFirst, dedupFirstAux]

/-- **C5** (counterexample): the final keyword list can contain two distinct
phrases with token-set Jaccard similarity `2/3 ≥ 0.62` — the strict pass
picks "alpha beta" and skips "alpha beta gamma" (Jaccard `2/3 ≥ 0.62`),
but with fewer than 8 picks the relaxed fill pass re-examines the rows
with the looser bound `0.7` and admits it. -/
theorem C5_counterexample_relaxed_pass_near_duplicate :
    ("alpha beta".data : Str) ∈
        finalKeywords (strs ["alpha beta", "alpha beta gamma"])
          (strs ["alpha beta", "alpha beta gamma"]) ∅ ∅
    ∧ ("alpha beta gamma".data : Str) ∈
        finalKeywords (strs ["alpha beta", "alpha beta gamma"])
          (strs ["alpha beta", "alpha beta gamma"]) ∅ ∅
    ∧ ("alpha beta".data : Str) ≠ ("alpha beta gamma".data : Str)
    ∧ (62 : ℚ)/100 ≤ jaccardSim ("alpha beta".data) ("alpha beta gamma".data) := by
  refine ⟨by decide, by decide, by decide, ?_⟩
  have h1 : jaccardSim ("alpha beta".data) ("alpha beta gamma".data) = mkRat 2 3 := by
    decide
  have h2 : (62 : ℚ)/100 = mkRat 62 100 := by
    rw [mkRat_eq_natDiv]
    norm_num
  rw [h1, h2]
  decide

/-- **C5** (amended): every pair of distinct phrases in the final keyword
list has token-set Jaccard similarity below `0.7` — the `0.62` bound is
enforced only by the strict pass, and the relaxed fill pass may add pairs
with similarity in `[0.62, 0.7)`; the single-token fallback never fires
for rows produced by `toRichKeyword` (every such phrase has at least two
good tokens, which the hypothesis records), so it adds nothing. -/
theorem C5_final_keyword_diversity :
    ∀ (rows combined : List Str) (seedAll seedSpec : Finset Str),
      (∀ kw ∈ combined, 2 ≤ ((tokenizeKW kw).filter isGoodToken).length) →
      ∀ a b, a ∈ finalKeywords rows combined seedAll seedSpec →
        b ∈ finalKeywords rows combined seedAll seedSpec →
        a ≠ b → jaccardSim a b < 7/10 := by
  intro rows combined seedAll seedSpec hcomb a b ha hb hab
  have hpair : (finalKeywords rows combined seedAll seedSpec).Pairwise
      (fun x y => jaccardSim x y < mkRat 7 10) := by
    simp only [finalKeywords]
    rw [oneWordFallback_eq_nil combined _ hcomb, List.append_nil]
    have hk := pickFinalKeywords_pairwise rows seedAll seedSpec 8
    split_ifs with hlen
    · exact List.Pairwise.sublist ((List.take_sublist _ _).trans (uniqJS_sublist _)) hk
    · exact hk
  have hsymm : Symmetric (fun x y : Str => jaccardSim x y < mkRat 7 10) := by
    intro x y h
    rw [jaccardSim_comm]
    exact h
  have hq : (mkRat 7 10 : ℚ) = 7/10 := by
    rw [mkRat_eq_natDiv]
    norm_num
  rw [← hq]
  exact hpair.forall hsymm ha hb hab

theorem C5_witness :
    jaccardSim ("alpha beta".data) ("gamma delta".data) < 7/10 :=
  C5_final_keyword_diversity (strs ["alpha beta", "gamma delta"])
    (strs ["alpha beta", "gamma delta"]) ∅ ∅ (by decide)
    ("alpha beta".data) ("gamma delta".data) (by decide) (by decide) (by decide)

/-! ## C2 — padding guarantee -/

theorem fillGo_of_le (n : ℕ) (pool out : List Str) (h : n ≤ out.length) :
    fillGo n pool out = out := by
  cases pool with
  | nil => rfl
  | cons p ps => simp [fillGo, h]

theorem fillGo_append (n : ℕ) (pool : List Str) :
    ∀ out, ∃ add, fillGo n pool out = out ++ add ∧ ∀ x ∈ add, x ∈ pool := by
  induction pool with
  | nil => intro out; exact ⟨[], by simp [fillGo]⟩
  | cons p ps ih =>
      intro out
      simp only [fillGo]
      split_ifs with h1 h2
      · exact ⟨[], by simp⟩
      · obtain ⟨add, he, hm⟩ := ih out
        exact ⟨add, he, fun x hx => List.mem_cons_of_mem _ (hm x hx)⟩
      · obtain ⟨add, he, hm⟩ := ih (out ++ [p])
        refine ⟨p :: add, by rw [he]; simp, ?_⟩
        intro x hx
        rcases List.mem_cons.mp hx with rfl | hx
        · exact List.mem_cons_self _ _
        · exact List.mem_cons_of_mem _ (hm x hx)

theorem mem_lower_fillGo (n : ℕ) (pool out : List Str) (x : Str)
    (hx : x ∈ out.map lowerStr) : x ∈ (fillGo n pool out).map lowerStr := by
  obtain ⟨add, he, -⟩ := fillGo_append n pool out
  rw [he, List.map_append]
  exact List.mem_append_left _ hx

theorem fillGo_ciNodup (n : ℕ) (pool : List Str) :
    ∀ out, ciNodup out → ciNodup (fillGo n pool out) := by
  induction pool with
  | nil => intro out h; simpa [fillGo] using h
  | cons p ps ih =>
      intro out h
      simp only [fillGo]
      split_ifs with h1 h2
      · exact h
      · exact ih out h
      · refine ih _ ?_
        rw [ciNodup, List.pairwise_append]
        refine ⟨h, List.pairwise_singleton _ _, ?_⟩
        intro a ha b hb
        rw [List.mem_singleton] at hb
        subst hb
        intro heq
        push_neg at h2
        exact h2.2 (heq ▸ List.mem_map_of_mem lowerStr ha)

theorem fillGo_exhaust (n : ℕ) (pool : List Str) :
    ∀ out, (fillGo n pool out).length < n →
      ∀ p ∈ pool, p = [] ∨ lowerStr p ∈ (fillGo n pool out).map lowerStr := by
  induction pool with
  | nil => simp
  | cons q ps ih =>
      intro out hlen p hp
      by_cases h1 : n ≤ out.length
      · rw [fillGo_of_le n _ out h1] at hlen
        omega
      · by_cases h2 : lowerStr q = [] ∨ lowerStr q ∈ out.map lowerStr
        · have he : fillGo n (q :: ps) out = fillGo n ps out := by
            simp only [fillGo]
            rw [if_neg h1, if_pos h2]
          rw [he] at hlen ⊢
          rcases List.mem_cons.mp hp with rfl | hp'
          · rcases h2 with h2 | h2
            · left
              cases p with
              | nil => rfl
              | cons c l => simp [lowerStr] at h2
            · exact Or.inr (mem_lower_fillGo n ps out _ h2)
          · exact ih out hlen p hp'
        · have he : fillGo n (q :: ps) out = fillGo n ps (out ++ [q]) := by
            simp only [fillGo]
            rw [if_neg h1, if_neg h2]
          rw [he] at hlen ⊢
          rcases List.mem_cons.mp hp with rfl | hp'
          · refine Or.inr (mem_lower_fillGo n ps _ _ ?_)
            rw [List.map_append]
            exact List.mem_append_right _ (by simp)
          · exact ih _ hlen p hp'

theorem ciNodup_length_eq (l : List Str) (h : ciNodup l) :
    l.length = (l.map lowerStr).toFinset.card := by
  have hn : (l.map lowerStr).Nodup := h.map lowerStr (fun a b hab => hab)
  rw [List.toFinset_card_of_nodup hn, List.length_map]

theorem ciNodup_of_sublist {l₁ l₂ : List Str} (h : List.Sublist l₁ l₂)
    (hn : ciNodup l₂) : ciNodup l₁ :=
  List.Pairwise.sublist h hn

/-- The combined two-pass fill of one output bucket: with case-insensitively
duplicate-free pools of nonempty entries covering at least 4 distinct
domains, the result has exactly 4 entries, stays duplicate-free, and draws
only from the two pools. -/
theorem fillPair (A B : List Str) (hA : ciNodup A)
    (hne : ∀ d ∈ A ++ B, d ≠ [])
    (hcard : 4 ≤ ((A ++ B).map lowerStr).toFinset.card) :
    (fillToN (fillToN (A.take 4) B 4) A 4).length = 4 ∧
    ciNodup (fillToN (fillToN (A.take 4) B 4) A 4) ∧
    ∀ d ∈ fillToN (fillToN (A.take 4) B 4) A 4, d ∈ A ∨ d ∈ B := by
  have hb0 : ciNodup (A.take 4) := ciNodup_of_sublist (List.take_sublist _ _) hA
  have hg1nd : ciNodup (fillGo 4 B (A.take 4)) := fillGo_ciNodup 4 B _ hb0
  obtain ⟨add1, he1, hm1⟩ := fillGo_append 4 B (A.take 4)
  have hg1mem : ∀ d ∈ fillGo 4 B (A.take 4), d ∈ A ∨ d ∈ B := by
    intro d hd
    rw [he1] at hd
    rcases List.mem_append.mp hd with hd | hd
    · exact Or.inl (List.mem_of_mem_take hd)
    · exact Or.inr (hm1 d hd)
  by_cases hg1 : 4 ≤ (fillGo 4 B (A.take 4)).length
  · -- the first fill already reaches 4
    have hb1len : (fillToN (A.take 4) B 4).length = 4 := by
      rw [fillToN, List.length_take]
      omega
    have hb1nd : ciNodup (fillToN (A.take 4) B 4) :=
      ciNodup_of_sublist (List.take_sublist _ _) hg1nd
    have hstop : fillGo 4 A (fillToN (A.take 4) B 4) = fillToN (A.take 4) B 4 :=
      fillGo_of_le 4 A _ (le_of_eq hb1len.symm)
    rw [fillToN, hstop]
    refine ⟨by rw [List.length_take]; omega, ciNodup_of_sublist (List.take_sublist _ _) hb1nd, ?_⟩
    intro d hd
    exact hg1mem d (List.mem_of_mem_take (List.mem_of_mem_take hd))
  · -- the first fill exhausted B
    push_neg at hg1
    have hb1 : fillToN (A.take 4) B 4 = fillGo 4 B (A.take 4) := by
      rw [fillToN]
      exact List.take_of_length_le (by omega)
    have hg2nd : ciNodup (fillGo 4 A (fillGo 4 B (A.take 4))) :=
      fillGo_ciNodup 4 A _ hg1nd
    obtain ⟨add2, he2, hm2⟩ := fillGo_append 4 A (fillGo 4 B (A.take 4))
    have hg2mem : ∀ d ∈ fillGo 4 A (fillGo 4 B (A.take 4)), d ∈ A ∨ d ∈ B := by
      intro d hd
      rw [he2] at hd
      rcases List.mem_append.mp hd with hd | hd
      · exact hg1mem d hd
      · exact Or.inl (hm2 d hd)
    by_cases hg2 : 4 ≤ (fillGo 4 A (fillGo 4 B (A.take 4))).length
    · rw [fillToN, hb1]
      refine ⟨by rw [List.length_take]; omega,
        ciNodup_of_sublist (List.take_sublist _ _) hg2nd, ?_⟩
      intro d hd
      exact hg2mem d (List.mem_of_mem_take hd)
    · -- both fills fell short: contradiction with the distinct-domain count
      exfalso
      push_neg at hg2
      have hPmem : ∀ p ∈ A, lowerStr p ∈
          (fillGo 4 A (fillGo 4 B (A.take 4))).map lowerStr := by
        intro p hp
        rcases fillGo_exhaust 4 A _ hg2 p hp with h | h
        · exact absurd h (hne p (List.mem_append_left _ hp))
        · exact h
      have hSmem : ∀ p ∈ B, lowerStr p ∈
          (fillGo 4 A (fillGo 4 B (A.take 4))).map lowerStr := by
        intro p hp
        rcases fillGo_exhaust 4 B _ hg1 p hp with h | h
        · exact absurd h (hne p (List.mem_append_right _ hp))
        · exact mem_lower_fillGo 4 A _ _ h
      have hsub : ((A ++ B).map lowerStr).toFinset ⊆
          ((fillGo 4 A (fillGo 4 B (A.take 4))).map lowerStr).toFinset := by
        intro x hx
        rw [List.mem_toFinset, List.mem_map] at hx
        obtain ⟨d, hd, rfl⟩ := hx
        rw [List.mem_toFinset]
        rcases List.mem_append.mp hd with hd | hd
        · exact hPmem d hd
        · exact hSmem d hd
      have hle := Finset.card_le_card hsub
      have := ciNodup_length_eq _ hg2nd
      omega

/-- **C2**: when the two intent-filtered pools are case-insensitively
duplicate-free lists of non-blocked, non-self domains covering at least 4
distinct domains between them, the POST handler's padding composition
returns `businessCompetitors` and `searchCompetitors` of exactly 4 entries
each, with no case-insensitive duplicate inside a list and no blocked or
self domain in either list. -/
theorem C2_padding_guarantee :
    ∀ (platformFiltered searchFiltered : List Str) (rootHost : Str),
      ciNodup platformFiltered → ciNodup searchFiltered →
      (∀ d ∈ platformFiltered ++ searchFiltered,
        isBlockedDomain d = false ∧ isSelfDomain d rootHost = false) →
      4 ≤ (((platformFiltered ++ searchFiltered).map lowerStr).toFinset).card →
      ((paddedLists platformFiltered searchFiltered).1.length = 4 ∧
       ciNodup (paddedLists platformFiltered searchFiltered).1 ∧
       (∀ d ∈ (paddedLists platformFiltered searchFiltered).1,
         isBlockedDomain d = false ∧ isSelfDomain d rootHost = false)) ∧
      ((paddedLists platformFiltered searchFiltered).2.length = 4 ∧
       ciNodup (paddedLists platformFiltered searchFiltered).2 ∧
       (∀ d ∈ (paddedLists platformFiltered searchFiltered).2,
         isBlockedDomain d = false ∧ isSelfDomain d rootHost = false)) := by
  intro P S root hP hS hok hcard
  have hne : ∀ d ∈ P ++ S, d ≠ [] := by
    intro d hd hdnil
    have := (hok d hd).1
    rw [hdnil] at this
    simp [isBlockedDomain] at this
  have hne' : ∀ d ∈ S ++ P, d ≠ [] := by
    intro d hd
    rcases List.mem_append.mp hd with h | h
    · exact hne d (List.mem_append_right _ h)
    · exact hne d (List.mem_append_left _ h)
  have hcard' : 4 ≤ (((S ++ P).map lowerStr).toFinset).card := by
    rw [List.map_append, List.toFinset_append, Finset.union_comm,
      ← List.toFinset_append, ← List.map_append]
    exact hcard
  obtain ⟨hlen1, hnd1, hmem1⟩ := fillPair P S hP hne hcard
  obtain ⟨hlen2, hnd2, hmem2⟩ := fillPair S P hS hne' hcard'
  have hfst : (paddedLists P S).1 = fillToN (fillToN (P.take 4) S 4) P 4 := rfl
  have hsnd : (paddedLists P S).2 = fillToN (fillToN (S.take 4) P 4) S 4 := rfl
  rw [hfst, hsnd]
  refine ⟨⟨hlen1, hnd1, ?_⟩, ⟨hlen2, hnd2, ?_⟩⟩
  · intro d hd
    rcases hmem1 d hd with h | h
    · exact hok d (List.mem_append_left _ h)
    · exact hok d (List.mem_append_right _ h)
  · intro d hd
    rcases hmem2 d hd with h | h
    · exact hok d (List.mem_append_right _ h)
    · exact hok d (List.mem_append_left _ h)

theorem C2_witness :
    (paddedLists (strs ["a.org", "b.org"]) (strs ["c.org", "d.org", "e.org"])).1.length = 4 ∧
    (paddedLists (strs ["a.org", "b.org"]) (strs ["c.org", "d.org", "e.org"])).2.length = 4 :=
  ⟨(C2_padding_guarantee (strs ["a.org", "b.org"]) (strs ["c.org", "d.org", "e.org"])
      ("example.com".data) (by decide) (by decide) (by decide) (by decide)).1.1,
   (C2_padding_guarantee (strs ["a.org", "b.org"]) (strs ["c.org", "d.org", "e.org"])
      ("example.com".data) (by decide) (by decide) (by decide) (by decide)).2.1⟩

/-! ## C1 — competitor ranking -/

theorem mem_dedupFirstAux (l : List Str) :
    ∀ (seen : List Str) (x : Str), x ∈ dedupFirstAux seen l ↔ x ∈ l ∧ x ∉ seen := by
  induction l with
  | nil => intro seen x; simp [dedupFirstAux]
  | cons y ys ih =>
      intro seen x
      rw [dedupFirstAux]
      split_ifs with hy
      · rw [ih]
        constructor
        · rintro ⟨h, hs⟩
          exact ⟨List.mem_cons_of_mem _ h, hs⟩
        · rintro ⟨hmem, hs⟩
          rcases List.mem_cons.mp hmem with rfl | h
          · exact absurd hy hs
          · exact ⟨h, hs⟩
      · constructor
        · intro hmem
          rcases List.mem_cons.mp hmem with rfl | h
          · exact ⟨List.mem_cons_self _ _, hy⟩
          · rw [ih] at h
            exact ⟨List.mem_cons_of_mem _ h.1,
              fun hc => h.2 (List.mem_cons_of_mem _ hc)⟩
        · rintro ⟨hmem, hs⟩
          rcases List.mem_cons.mp hmem with rfl | h
          · exact List.mem_cons_self _ _
          · by_cases hxy : x = y
            · subst hxy
              exact List.mem_cons_self _ _
            · refine List.mem_cons_of_mem _ ?_
              rw [ih]
              refine ⟨h, fun hc => ?_⟩
              rcases List.mem_cons.mp hc with h' | h'
              · exact hxy h'
              · exact hs h'

theorem mem_dedupFirst (l : List Str) (x : Str) : x ∈ dedupFirst l ↔ x ∈ l := by
  rw [dedupFirst, mem_dedupFirstAux]
  simp

theorem dedupFirstAux_append_singleton (l : List Str) :
    ∀ (seen : List Str) (x : Str),
      dedupFirstAux seen (l ++ [x]) =
        dedupFirstAux seen l ++ (if x ∈ seen ∨ x ∈ l then [] else [x]) := by
  induction l with
  | nil =>
      intro seen x
      simp only [List.nil_append, dedupFirstAux]
      split_ifs with h1 h2 h2 <;> simp_all
  | cons y ys ih =>
      intro seen x
      rw [List.cons_append, dedupFirstAux, dedupFirstAux]
      by_cases hy : y ∈ seen
      · rw [if_pos hy, if_pos hy, ih]
        have hiff : (x ∈ seen ∨ x ∈ ys) ↔ (x ∈ seen ∨ x ∈ y :: ys) := by
          simp only [List.mem_cons]
          constructor
          · rintro (h | h)
            · exact Or.inl h
            · exact Or.inr (Or.inr h)
          · rintro (h | rfl | h)
            · exact Or.inl h
            · exact Or.inl hy
            · exact Or.inr h
        rw [if_congr hiff rfl rfl]
      · rw [if_neg hy, if_neg hy, ih]
        have hiff : (x ∈ y :: seen ∨ x ∈ ys) ↔ (x ∈ seen ∨ x ∈ y :: ys) := by
          simp only [List.mem_cons]
          tauto
        rw [if_congr hiff rfl rfl, List.cons_append]

theorem dedupFirst_append_singleton (l : List Str) (x : Str) :
    dedupFirst (l ++ [x]) = dedupFirst l ++ (if x ∈ l then [] else [x]) := by
  rw [dedupFirst, dedupFirst, dedupFirstAux_append_singleton]
  congr 1
  simp

theorem contains_eq_true_iff_mem (l : List Str) (x : Str) :
    l.contains x = true ↔ x ∈ l := by
  rw [List.contains_iff_exists_mem_beq]
  constructor
  · rintro ⟨y, hy, hbeq⟩
    rw [beq_iff_eq] at hbeq
    exact hbeq ▸ hy
  · intro h
    exact ⟨x, h, beq_self_eq_true x⟩

theorem rowKept_eq_true_iff (excl : Str) (r : ResultRow) :
    rowKept excl r = true ↔
      (¬r.domain = [] ∧ ¬normalizeCandidateDomain r.domain = [] ∧
       ¬(excl ≠ [] ∧ normalizeCandidateDomain r.domain = excl) ∧
       ¬isBlockedDomain (normalizeCandidateDomain r.domain) = true) := by
  rw [rowKept]
  dsimp only
  rw [Bool.and_eq_true, Bool.and_eq_true, Bool.and_eq_true]
  constructor
  · rintro ⟨h1, ⟨h2, h3⟩, h4⟩
    rw [Bool.not_eq_true', List.isEmpty_eq_false] at h1 h2
    rw [Bool.not_eq_true', Bool.and_eq_false_iff] at h3
    rw [Bool.not_eq_true'] at h4
    refine ⟨h1, h2, ?_, by simp [h4]⟩
    rintro ⟨he, hr⟩
    rcases h3 with h3 | h3
    · rw [Bool.not_eq_false', List.isEmpty_iff] at h3
      exact he h3
    · rw [beq_eq_false_iff_ne] at h3
      exact h3 hr
  · rintro ⟨h1, h2, h3, h4⟩
    refine ⟨?_, ⟨?_, ?_⟩, ?_⟩
    · rw [Bool.not_eq_true', List.isEmpty_eq_false]
      exact h1
    · rw [Bool.not_eq_true', List.isEmpty_eq_false]
      exact h2
    · rw [Bool.not_eq_true', Bool.and_eq_false_iff]
      by_cases he : excl = []
      · left
        rw [Bool.not_eq_false', List.isEmpty_iff]
        exact he
      · right
        rw [beq_eq_false_iff_ne]
        exact fun hr => h3 ⟨he, hr⟩
    · rw [Bool.not_eq_true', Bool.not_eq_true] at *
      simpa using h4

theorem rankStep_eq_of_not_kept (excl : Str) (m : List CompetitorAgg)
    (r : ResultRow) (h : rowKept excl r = false) : rankStep excl m r = m := by
  unfold rankStep
  by_cases h1 : r.domain = []
  · rw [if_pos h1]
  rw [if_neg h1]
  dsimp only
  by_cases h2 : normalizeCandidateDomain r.domain = []
  · rw [if_pos h2]
  rw [if_neg h2]
  by_cases h3 : excl ≠ [] ∧ normalizeCandidateDomain r.domain = excl
  · rw [if_pos h3]
  rw [if_neg h3]
  by_cases h4 : isBlockedDomain (normalizeCandidateDomain r.domain) = true
  · rw [if_pos h4]
  exact absurd ((rowKept_eq_true_iff excl r).mpr ⟨h1, h2, h3, h4⟩) (by simp [h])

theorem rankStep_eq_of_kept (excl : Str) (m : List CompetitorAgg)
    (r : ResultRow) (h : rowKept excl r = true) :
    rankStep excl m r =
      (if m.any (fun x => x.domain == normalizeCandidateDomain r.domain) then
        m.map (fun x =>
          if x.domain == normalizeCandidateDomain r.domain then
            { x with hits := x.hits + 1, posSum := x.posSum + posVal r.pos,
                     kws := addKw x.kws r.kw }
          else x)
      else m ++ [{ domain := normalizeCandidateDomain r.domain, hits := 1,
                   posSum := posVal r.pos, kws := [r.kw] }]) := by
  obtain ⟨h1, h2, h3, h4⟩ := (rowKept_eq_true_iff excl r).mp h
  unfold rankStep
  rw [if_neg h1]
  dsimp only
  rw [if_neg h2, if_neg h3, if_neg h4]

theorem rowsForDomain_ne_nil_mem (excl : Str) (rows : List ResultRow) (d : Str)
    (h : rowsForDomain excl rows d ≠ []) : d ∈ rootsList excl rows := by
  obtain ⟨q, hq⟩ := List.exists_mem_of_ne_nil _ h
  rw [rowsForDomain, List.mem_filter] at hq
  rw [rootsList, mem_dedupFirst]
  have : d = normalizeCandidateDomain q.domain := by
    have := hq.2
    simp only [beq_iff_eq] at this
    exact this.symm
  subst this
  exact List.mem_map_of_mem _ hq.1

/-- The aggregation fold computes, in first-appearance key order, exactly
the per-domain statistics of the kept rows. -/
theorem foldl_rankStep_eq (excl : Str) (rows : List ResultRow) :
    rows.foldl (rankStep excl) [] = (rootsList excl rows).map (aggSpec excl rows) := by
  induction rows using List.reverseRecOn with
  | nil => simp [rootsList, dedupFirst, dedupFirstAux]
  | append_singleton rs r ih =>
      rw [List.foldl_append, List.foldl_cons, List.foldl_nil, ih]
      by_cases hk : rowKept excl r = true
      · -- the row is kept
        have hfil : (rs ++ [r]).filter (rowKept excl) =
            rs.filter (rowKept excl) ++ [r] := by
          rw [List.filter_append, List.filter_singleton, Bool.cond_eq_if, if_pos hk]
        have hrows : ∀ d, rowsForDomain excl (rs ++ [r]) d =
            rowsForDomain excl rs d ++
              (if normalizeCandidateDomain r.domain == d then [r] else []) := by
          intro d
          rw [rowsForDomain, rowsForDomain, hfil, List.filter_append,
            List.filter_singleton, Bool.cond_eq_if]
        have haggne : ∀ d, d ≠ normalizeCandidateDomain r.domain →
            aggSpec excl (rs ++ [r]) d = aggSpec excl rs d := by
          intro d hd
          have hbeq : (normalizeCandidateDomain r.domain == d) = false := by
            rw [beq_eq_false_iff_ne]
            exact fun he => hd he.symm
          rw [aggSpec, aggSpec, hrows d, hbeq]
          simp
        have haggeq : aggSpec excl (rs ++ [r]) (normalizeCandidateDomain r.domain) =
            { aggSpec excl rs (normalizeCandidateDomain r.domain) with
              hits := (aggSpec excl rs (normalizeCandidateDomain r.domain)).hits + 1,
              posSum := (aggSpec excl rs (normalizeCandidateDomain r.domain)).posSum
                + posVal r.pos,
              kws := addKw (aggSpec excl rs (normalizeCandidateDomain r.domain)).kws
                r.kw } := by
          rw [aggSpec, aggSpec, hrows _, beq_self_eq_true, if_pos rfl]
          simp only [List.map_append, List.length_append, List.sum_append,
            List.map_cons, List.map_nil, List.length_cons, List.length_nil,
            List.sum_cons, List.sum_nil, CompetitorAgg.mk.injEq, true_and,
            Nat.add_zero]
          rw [dedupFirst_append_singleton, addKw]
          by_cases hmem : r.kw ∈ (rowsForDomain excl rs
              (normalizeCandidateDomain r.domain)).map (fun q => q.kw)
          · rw [if_pos hmem,
              if_pos (by rw [contains_eq_true_iff_mem, mem_dedupFirst]; exact hmem)]
            simp
          · rw [if_neg hmem, if_neg (fun hc => hmem ((mem_dedupFirst _ _).mp
              ((contains_eq_true_iff_mem _ _).mp hc)))]
        have hmaps : ((rs ++ [r]).filter (rowKept excl)).map
            (fun x => normalizeCandidateDomain x.domain) =
            (rs.filter (rowKept excl)).map
              (fun x => normalizeCandidateDomain x.domain) ++
              [normalizeCandidateDomain r.domain] := by
          rw [hfil, List.map_append]
          rfl
        have hrootsL : rootsList excl (rs ++ [r]) = rootsList excl rs ++
            (if normalizeCandidateDomain r.domain ∈ (rs.filter (rowKept excl)).map
                (fun x => normalizeCandidateDomain x.domain)
             then [] else [normalizeCandidateDomain r.domain]) := by
          rw [rootsList, rootsList, hmaps, dedupFirst_append_singleton]
        rw [rankStep_eq_of_kept excl _ r hk]
        by_cases hmem : normalizeCandidateDomain r.domain ∈ rootsList excl rs
        · -- the root is already a key: in-place update
          have hmem' : normalizeCandidateDomain r.domain ∈
              (rs.filter (rowKept excl)).map (fun x => normalizeCandidateDomain x.domain) := by
            rw [rootsList, mem_dedupFirst] at hmem
            exact hmem
          have hany : ((rootsList excl rs).map (aggSpec excl rs)).any
              (fun x => x.domain == normalizeCandidateDomain r.domain) = true := by
            rw [List.any_eq_true]
            exact ⟨aggSpec excl rs (normalizeCandidateDomain r.domain),
              List.mem_map_of_mem _ hmem, by rw [aggSpec]; exact beq_self_eq_true _⟩
          rw [if_pos hany, hrootsL, if_pos hmem', List.append_nil, List.map_map]
          refine List.map_congr_left ?_
          intro d hd
          simp only [Function.comp]
          by_cases hdr : d = normalizeCandidateDomain r.domain
          · subst hdr
            rw [if_pos (by rw [aggSpec]; exact beq_self_eq_true _), haggeq]
          · rw [show (aggSpec excl rs d).domain = d from rfl,
              if_neg (fun hb => hdr (beq_iff_eq.mp hb)), haggne d hdr]
        · -- the root is new: appended at the end
          have hmem' : normalizeCandidateDomain r.domain ∉
              (rs.filter (rowKept excl)).map (fun x => normalizeCandidateDomain x.domain) := by
            rw [rootsList, mem_dedupFirst] at hmem
            exact hmem
          have hany : ¬((rootsList excl rs).map (aggSpec excl rs)).any
              (fun x => x.domain == normalizeCandidateDomain r.domain) = true := by
            rw [List.any_eq_true]
            rintro ⟨x, hx, hbeq⟩
            obtain ⟨d, hd, rfl⟩ := List.mem_map.mp hx
            rw [show (aggSpec excl rs d).domain = d from rfl, beq_iff_eq] at hbeq
            exact hmem (hbeq ▸ hd)
          rw [if_neg hany, hrootsL, if_neg hmem', List.map_append]
          congr 1
          · refine List.map_congr_left ?_
            intro d hd
            exact (haggne d (fun he => hmem (he ▸ hd))).symm
          · have hempty : rowsForDomain excl rs (normalizeCandidateDomain r.domain) = [] := by
              by_contra hne
              exact hmem (rowsForDomain_ne_nil_mem excl rs _ hne)
            rw [List.map_singleton, aggSpec, hrows _, hempty, beq_self_eq_true,
              if_pos rfl, List.nil_append]
            simp [dedupFirst, dedupFirstAux]
      · -- the row is skipped: nothing changes
        rw [rankStep_eq_of_not_kept excl _ r (by simpa using hk)]
        have hfil : (rs ++ [r]).filter (rowKept excl) = rs.filter (rowKept excl) := by
          rw [List.filter_append, List.filter_singleton, Bool.cond_eq_if,
            if_neg hk, List.append_nil]
        have hroots : rootsList excl (rs ++ [r]) = rootsList excl rs := by
          rw [rootsList, rootsList, hfil]
        have hagg : ∀ d, aggSpec excl (rs ++ [r]) d = aggSpec excl rs d := by
          intro d
          rw [aggSpec, aggSpec, rowsForDomain, rowsForDomain, hfil]
        rw [hroots]
        exact (List.map_congr_left (fun d _ => hagg d)).symm

theorem mem_insertDesc (p x : Str × ℚ) (l : List (Str × ℚ)) :
    x ∈ insertDesc p l ↔ x = p ∨ x ∈ l := by
  induction l with
  | nil => simp [insertDesc]
  | cons q rest ih =>
      rw [insertDesc]
      by_cases h : p.2 < q.2
      · rw [if_pos h]
        simp only [List.mem_cons, ih]
        tauto
      · rw [if_neg h]
        simp only [List.mem_cons]

theorem insertDesc_perm (p : Str × ℚ) (l : List (Str × ℚ)) :
    List.Perm (insertDesc p l) (p :: l) := by
  induction l with
  | nil => rw [insertDesc]
  | cons q rest ih =>
      rw [insertDesc]
      by_cases h : p.2 < q.2
      · rw [if_pos h]
        exact (ih.cons q).trans (List.Perm.swap p q rest)
      · rw [if_neg h]

theorem insertDesc_sorted (p : Str × ℚ) (l : List (Str × ℚ))
    (h : l.Pairwise (fun a b => b.2 ≤ a.2)) :
    (insertDesc p l).Pairwise (fun a b => b.2 ≤ a.2) := by
  induction l with
  | nil => simp [insertDesc]
  | cons q rest ih =>
      rw [insertDesc]
      rw [List.pairwise_cons] at h
      obtain ⟨hq, hrest⟩ := h
      by_cases hlt : p.2 < q.2
      · rw [if_pos hlt, List.pairwise_cons]
        refine ⟨?_, ih hrest⟩
        intro x hx
        rcases (mem_insertDesc p x rest).mp hx with rfl | hxr
        · exact le_of_lt hlt
        · exact hq x hxr
      · rw [if_neg hlt, List.pairwise_cons]
        refine ⟨?_, List.pairwise_cons.mpr ⟨hq, hrest⟩⟩
        intro x hx
        rcases List.mem_cons.mp hx with rfl | hxr
        · exact le_of_not_lt hlt
        · exact le_trans (hq x hxr) (le_of_not_lt hlt)

theorem sortDesc_perm (l : List (Str × ℚ)) : List.Perm (sortDesc l) l := by
  induction l with
  | nil => rw [sortDesc]
  | cons p rest ih =>
      rw [sortDesc]
      exact (insertDesc_perm p (sortDesc rest)).trans (ih.cons p)

theorem sortDesc_sorted (l : List (Str × ℚ)) :
    (sortDesc l).Pairwise (fun a b => b.2 ≤ a.2) := by
  induction l with
  | nil => rw [sortDesc]; exact List.Pairwise.nil
  | cons p rest ih =>
      rw [sortDesc]
      exact insertDesc_sorted p _ ih

theorem aggScore_aggSpec (excl : Str) (rows : List ResultRow) (d : Str) :
    aggScore (aggSpec excl rows d) = competitorScore excl rows d := rfl

/-- C1: the competitor ranker groups the kept rows by candidate root
domain (in first-appearance order), scores every root as
`uniqueProbeCount * 100 - avgPosition * 6`, and outputs the first `maxN`
domains of the stable descending sort of those scores; `sortDesc` is a
permutation sorted descending by score; and in the spec's scenario
rival2 (two distinct probes) ranks above rival1 (one probe, two hits). -/
theorem C1_competitor_ranking :
    (∀ (rows : List ResultRow) (excl : Str) (maxN : ℕ),
      rankCompetitors rows excl maxN =
        ((sortDesc ((rootsList excl rows).map
            (fun d => (d, competitorScore excl rows d)))).take maxN).map Prod.fst) ∧
    (∀ l : List (Str × ℚ),
      List.Perm (sortDesc l) l ∧
      (sortDesc l).Pairwise (fun a b => b.2 ≤ a.2)) ∧
    rankCompetitors scenarioRows [] 10 = strs ["rival2.com", "rival1.com"] := by
  refine ⟨?_, fun l => ⟨sortDesc_perm l, sortDesc_sorted l⟩, ?_⟩
  · intro rows excl maxN
    show ((sortDesc ((rows.foldl (rankStep excl) []).map
        (fun x => (x.domain, aggScore x)))).take maxN).map Prod.fst = _
    rw [foldl_rankStep_eq, List.map_map]
    refine congrArg _ (congrArg _ (congrArg _ (List.map_congr_left ?_)))
    intro d _
    show ((aggSpec excl rows d).domain, aggScore (aggSpec excl rows d)) = _
    rw [aggScore_aggSpec]
    rfl
  · have hfold : scenarioRows.foldl (rankStep []) [] =
        [⟨"rival1.com".data, 2, 4, ["probe a".data]⟩,
         ⟨"rival2.com".data, 2, 3, ["probe a".data, "probe b".data]⟩] := by
      decide
    have h1 : aggScore ⟨"rival1.com".data, 2, 4, ["probe a".data]⟩ = 88 := by
      simp only [aggScore]
      norm_num
    have h2 : aggScore ⟨"rival2.com".data, 2, 3,
        ["probe a".data, "probe b".data]⟩ = 191 := by
      simp only [aggScore]
      norm_num
    show ((sortDesc ((scenarioRows.foldl (rankStep []) []).map
        (fun x => (x.domain, aggScore x)))).take 10).map Prod.fst = _
    rw [hfold]
    simp only [List.map_cons, List.map_nil]
    rw [h1, h2, sortDesc, sortDesc, sortDesc, insertDesc,
      insertDesc, if_pos (by norm_num : (88 : ℚ) < 191), insertDesc]
    rfl

/-! ## C4 — root-domain derivation: helper lemmas -/

theorem lowerChar_isWs (c : Char) : isWsChar (lowerChar c) = isWsChar c := by
  rw [lowerChar]
  cases hf : lowerTable.find? (fun p => p.1 == c) with
  | none => rfl
  | some p =>
      have hm : p ∈ lowerTable := List.mem_of_find?_eq_some hf
      have hc : p.1 = c := by simpa using List.find?_some hf
      have hall : ∀ q ∈ lowerTable, isWsChar q.2 = isWsChar q.1 := by decide
      rw [hall p hm, hc]

theorem lowerChar_fix (c : Char) (h : hostLabelChar c = true ∨ c = '.') :
    lowerChar c = c := by
  rw [lowerChar]
  cases hf : lowerTable.find? (fun p => p.1 == c) with
  | none => rfl
  | some p =>
      have hm : p ∈ lowerTable := List.mem_of_find?_eq_some hf
      have hc : p.1 = c := by simpa using List.find?_some hf
      have hall : ∀ q ∈ lowerTable, hostLabelChar q.1 = false ∧ q.1 ≠ '.' := by decide
      rcases h with h | h
      · rw [← hc, (hall p hm).1] at h
        exact absurd h (by decide)
      · exact absurd (hc.trans h) (hall p hm).2

theorem hostLabelChar_valid (c : Char) (h : hostLabelChar c = true) :
    validHostChar c = true := by
  simp only [hostLabelChar, validHostChar, Bool.or_eq_true] at *
  tauto

theorem validHostChar_ne (c d : Char) (h : validHostChar c = true)
    (hd : validHostChar d = false) : c ≠ d := by
  rintro rfl
  rw [hd] at h
  exact Bool.false_ne_true h

theorem validHostChar_not_ws (c : Char) (h : validHostChar c = true) :
    isWsChar c = false := by
  rw [← Bool.not_eq_true]
  intro hw
  simp only [isWsChar, Bool.or_eq_true, beq_iff_eq] at hw
  rcases hw with ((rfl | rfl) | rfl) | rfl <;> exact absurd h (by decide)

theorem validHostLabels_iff (host : Str) :
    validHostLabels host = true ↔
      host ≠ [] ∧ ∀ l ∈ dsplit '.' host, l ≠ [] ∧ ∀ c ∈ l, hostLabelChar c = true := by
  rw [validHostLabels, Bool.and_eq_true, List.all_eq_true, Bool.not_eq_true',
    List.isEmpty_eq_false]
  refine and_congr_right (fun _ => forall_congr' (fun l => forall_congr' (fun _ => ?_)))
  rw [Bool.and_eq_true, List.all_eq_true, Bool.not_eq_true', List.isEmpty_eq_false]

theorem dsplit_sep_not_mem (sep : Char) (s : Str) :
    ∀ l ∈ dsplit sep s, sep ∉ l := by
  induction s with
  | nil =>
      intro l hl
      simp only [dsplit, List.mem_singleton] at hl
      subst hl
      simp
  | cons c rest ih =>
      intro l hl
      simp only [dsplit] at hl
      by_cases hc : c = sep
      · rw [if_pos hc] at hl
        rcases List.mem_cons.mp hl with rfl | h
        · simp
        · exact ih l h
      · rw [if_neg hc] at hl
        rcases List.mem_cons.mp hl with rfl | h
        · intro hmem
          rcases List.mem_cons.mp hmem with rfl | h2
          · exact hc rfl
          · have hh : (dsplit sep rest).headI ∈ dsplit sep rest := by
              cases hd : dsplit sep rest with
              | nil => exact absurd hd (dsplit_ne_nil sep rest)
              | cons a as => exact List.mem_cons_self _ _
            exact ih _ hh h2
        · exact ih l (List.mem_of_mem_tail h)

theorem mem_joinSep (sep : Char) (ls : List Str) (c : Char)
    (h : c ∈ joinSep sep ls) : c = sep ∨ ∃ l ∈ ls, c ∈ l := by
  induction ls with
  | nil => simp [joinSep] at h
  | cons l ls ih =>
      cases ls with
      | nil => exact Or.inr ⟨l, List.mem_cons_self _ _, by simpa [joinSep] using h⟩
      | cons l' ls' =>
          rw [show joinSep sep (l :: l' :: ls') = l ++ sep :: joinSep sep (l' :: ls')
              from rfl, List.mem_append, List.mem_cons] at h
          rcases h with h | h | h
          · exact Or.inr ⟨l, List.mem_cons_self _ _, h⟩
          · exact Or.inl h
          · rcases ih h with h | ⟨x, hx, hcx⟩
            · exact Or.inl h
            · exact Or.inr ⟨x, List.mem_cons_of_mem _ hx, hcx⟩

theorem mem_host_valid (host : Str) (c : Char) (hv : validHostLabels host = true)
    (hc : c ∈ host) : c = '.' ∨ hostLabelChar c = true := by
  rw [← joinSep_dsplit '.' host] at hc
  rcases mem_joinSep '.' _ c hc with h | ⟨l, hl, hcl⟩
  · exact Or.inl h
  · exact Or.inr ((((validHostLabels_iff host).mp hv).2 l hl).2 c hcl)

theorem dropWhile_eq_self_of_all (p : Char → Bool) (s : Str)
    (h : ∀ c ∈ s, p c = false) : s.dropWhile p = s := by
  cases s with
  | nil => rfl
  | cons c cs =>
      rw [List.dropWhile_cons,
        if_neg (by rw [h c (List.mem_cons_self _ _)]; exact Bool.false_ne_true)]

theorem trimStr_eq_self (s : Str) (h : ∀ c ∈ s, isWsChar c = false) :
    trimStr s = s := by
  rw [trimStr, dropWhile_eq_self_of_all _ _ h,
    dropWhile_eq_self_of_all _ _ (fun c hc => h c (List.mem_reverse.mp hc)),
    List.reverse_reverse]

theorem trimStr_lowerStr (s : Str) : trimStr (lowerStr s) = lowerStr (trimStr s) := by
  have hpe : (isWsChar ∘ lowerChar) = isWsChar := funext lowerChar_isWs
  rw [trimStr, trimStr, lowerStr, lowerStr, List.dropWhile_map, hpe,
    ← List.map_reverse, List.dropWhile_map, hpe, ← List.map_reverse]

theorem lowerStr_eq_self (host : Str) (hv : validHostLabels host = true) :
    lowerStr host = host := by
  rw [lowerStr]
  exact (List.map_congr_left (fun c hc => lowerChar_fix c
    (by rcases mem_host_valid host c hv hc with h | h
        · exact Or.inr h
        · exact Or.inl h))).trans (List.map_id host)

theorem foldl_max_init (L : List (List Str)) (i : ℕ) :
    i ≤ L.foldl (fun acc e => max acc e.length) i := by
  induction L generalizing i with
  | nil => exact le_refl i
  | cons a L ih => exact le_trans (le_max_left i a.length) (ih _)

theorem foldl_max_mem (L : List (List Str)) (i : ℕ) (e : List Str) (he : e ∈ L) :
    e.length ≤ L.foldl (fun acc e => max acc e.length) i := by
  induction L generalizing i with
  | nil => exact absurd he (List.not_mem_nil e)
  | cons a L ih =>
      rcases List.mem_cons.mp he with rfl | h
      · exact le_trans (le_max_right i e.length) (foldl_max_init L _)
      · exact ih _ h

theorem foldl_max_le (L : List (List Str)) (i B : ℕ) (hi : i ≤ B)
    (h : ∀ e ∈ L, e.length ≤ B) :
    L.foldl (fun acc e => max acc e.length) i ≤ B := by
  induction L generalizing i with
  | nil => exact hi
  | cons a L ih =>
      exact ih _ (max_le hi (h a (List.mem_cons_self _ _)))
        (fun e he => h e (List.mem_cons_of_mem _ he))

theorem foldl_max_cases (L : List (List Str)) (i : ℕ) :
    L.foldl (fun acc e => max acc e.length) i = i ∨
    ∃ e ∈ L, L.foldl (fun acc e => max acc e.length) i = e.length := by
  induction L generalizing i with
  | nil => exact Or.inl rfl
  | cons a L ih =>
      rcases ih (max i a.length) with h | ⟨e, he, h⟩
      · rcases Nat.le_total a.length i with hle | hle
        · rw [show List.foldl _ i (a :: L) = List.foldl
            (fun acc e => max acc e.length) (max i a.length) L from rfl, h,
            max_eq_left hle]
          exact Or.inl rfl
        · refine Or.inr ⟨a, List.mem_cons_self _ _, ?_⟩
          rw [show List.foldl _ i (a :: L) = List.foldl
            (fun acc e => max acc e.length) (max i a.length) L from rfl, h,
            max_eq_right hle]
      · exact Or.inr ⟨e, List.mem_cons_of_mem _ he, h⟩

theorem suffixLen_pos (parts : List Str) : 1 ≤ suffixLen parts :=
  foldl_max_init _ 1

theorem suffixLen_le_two (parts : List Str) : suffixLen parts ≤ 2 := by
  refine foldl_max_le _ 1 2 (by omega) (fun e he => ?_)
  have hm : e ∈ pslMultiLabel := List.mem_of_mem_filter he
  have : ∀ x ∈ pslMultiLabel, x.length ≤ 2 := by decide
  exact this e hm

theorem le_suffixLen_of_mem (parts e : List Str) (he : e ∈ pslMultiLabel)
    (hs : e.isSuffixOf parts = true) : e.length ≤ suffixLen parts :=
  foldl_max_mem _ 1 e (List.mem_filter.mpr ⟨he, hs⟩)

theorem suffixLen_cases (parts : List Str) :
    suffixLen parts = 1 ∨
    ∃ e ∈ pslMultiLabel, e <:+ parts ∧ e.length = suffixLen parts := by
  rcases foldl_max_cases (pslMultiLabel.filter (fun e => e.isSuffixOf parts)) 1
    with h | ⟨e, he, h⟩
  · exact Or.inl h
  · obtain ⟨hm, hs⟩ := List.mem_filter.mp he
    exact Or.inr ⟨e, hm, List.isSuffixOf_iff_suffix.mp hs, h.symm⟩

/-- Transferring the public-suffix length to a long-enough suffix. -/
theorem suffixLen_suffix (parts ss : List Str) (hss : ss <:+ parts)
    (hlen : suffixLen parts ≤ ss.length) : suffixLen ss = suffixLen parts := by
  refine le_antisymm ?_ ?_
  · refine foldl_max_le _ 1 _ (suffixLen_pos parts) (fun e he => ?_)
    obtain ⟨hm, hs⟩ := List.mem_filter.mp he
    exact le_suffixLen_of_mem parts e hm
      (List.isSuffixOf_iff_suffix.mpr ((List.isSuffixOf_iff_suffix.mp hs).trans hss))
  · rcases suffixLen_cases parts with h | ⟨e, hm, hs, hl⟩
    · rw [h]; exact suffixLen_pos ss
    · rw [← hl]
      exact le_suffixLen_of_mem ss e hm (List.isSuffixOf_iff_suffix.mpr
        (List.suffix_of_suffix_length_le hs hss (by omega)))

theorem joinSep_ne_nil (sep : Char) (ls : List Str) (h : ls ≠ [])
    (h1 : ∀ l ∈ ls, l ≠ []) : joinSep sep ls ≠ [] := by
  cases ls with
  | nil => exact absurd rfl h
  | cons a as =>
      cases as with
      | nil => exact h1 a (List.mem_cons_self _ _)
      | cons b bs =>
          rw [show joinSep sep (a :: b :: bs) = a ++ sep :: joinSep sep (b :: bs)
            from rfl]
          exact fun hc => by
            have := congrArg List.length hc
            simp at this

/-- A nonempty suffix of a valid host's label list joins back to a valid
host with exactly those labels. -/
theorem valid_suffix_labels (g : Str) (ss : List Str)
    (hv : validHostLabels g = true) (hss : ss <:+ dsplit '.' g) (hne : ss ≠ []) :
    validHostLabels (joinSep '.' ss) = true ∧ dsplit '.' (joinSep '.' ss) = ss := by
  obtain ⟨-, hlab⟩ := (validHostLabels_iff g).mp hv
  have hsub : ∀ l ∈ ss, l ∈ dsplit '.' g := fun l hl => hss.subset hl
  have hround : dsplit '.' (joinSep '.' ss) = ss :=
    dsplit_joinSep '.' ss (fun l hl => dsplit_sep_not_mem '.' g l (hsub l hl)) hne
  refine ⟨(validHostLabels_iff _).mpr ⟨?_, ?_⟩, hround⟩
  · exact joinSep_ne_nil '.' ss hne (fun l hl => (hlab l (hsub l hl)).1)
  · rw [hround]
    exact fun l hl => hlab l (hsub l hl)

/-- The modelled URL parser recovers a well-formed host from
`https://<host>` unchanged. -/
theorem urlHostname_clean (host : Str) (hv : validHostLabels host = true) :
    urlHostname ("https://".data ++ host) = some host := by
  have hall : ∀ c ∈ host, validHostChar c = true := fun c hc => by
    rcases mem_host_valid host c hv hc with h | h
    · rw [h]; decide
    · exact hostLabelChar_valid c h
  have hpre : ("https://".data).isPrefixOf ("https://".data ++ host) = true := by
    rw [List.isPrefixOf_iff_prefix]
    exact List.prefix_append _ _
  have hdrop : ("https://".data ++ host).drop 8 = host := by
    rw [show (8 : ℕ) = ("https://".data).length from rfl, List.drop_left]
  have htake : host.takeWhile (fun c => !(c == '/' || c == '?' || c == '#')) = host := by
    refine List.takeWhile_eq_self_iff.mpr (fun c hc => ?_)
    have h := hall c hc
    simp only [Bool.not_eq_true', Bool.or_eq_false_iff, beq_eq_false_iff_ne]
    exact ⟨⟨validHostChar_ne c '/' h (by decide), validHostChar_ne c '?' h (by decide)⟩,
      validHostChar_ne c '#' h (by decide)⟩
  have hrev : (host.reverse.takeWhile (fun c => c != '@')).reverse = host := by
    rw [List.takeWhile_eq_self_iff.mpr (fun c hc => by
      simpa using validHostChar_ne c '@' (hall c (List.mem_reverse.mp hc)) (by decide)),
      List.reverse_reverse]
  have hhost : host.takeWhile (fun c => c != ':') = host :=
    List.takeWhile_eq_self_iff.mpr (fun c hc => by
      simpa using validHostChar_ne c ':' (hall c hc) (by decide))
  have hport : host.dropWhile (fun c => c != ':') = [] :=
    List.dropWhile_eq_nil_iff.mpr (fun c hc => by
      simpa using validHostChar_ne c ':' (hall c hc) (by decide))
  have hne : host ≠ [] := ((validHostLabels_iff host).mp hv).1
  simp only [urlHostname, hpre, if_true, hdrop, htake, hrev, hhost, hport,
    List.drop_nil, List.all_nil, and_true]
  rw [if_pos ⟨hne, List.all_eq_true.mpr hall⟩]

/-- On a well-formed host, `normalizeHost` only strips a leading `www.`. -/
theorem normalizeHost_clean (host : Str) (hv : validHostLabels host = true) :
    normalizeHost host = stripWWW host := by
  have hne : host ≠ [] := ((validHostLabels_iff host).mp hv).1
  have hnws : ∀ c ∈ host, isWsChar c = false := fun c hc => by
    rcases mem_host_valid host c hv hc with h | h
    · rw [h]; rfl
    · exact validHostChar_not_ws c (hostLabelChar_valid c h)
  have htrim : trimStr host = host := trimStr_eq_self host hnws
  have hlower : lowerStr host = host := lowerStr_eq_self host hv
  have hscheme : hasScheme host = false := by
    rw [hasScheme, Bool.or_eq_false_iff]
    constructor <;>
    · rw [← Bool.not_eq_true, List.isPrefixOf_iff_prefix]
      intro hp
      have hcm : ':' ∈ host := hp.subset (by decide)
      rcases mem_host_valid host ':' hv hcm with h | h <;> exact absurd h (by decide)
  simp only [normalizeHost, if_neg hne, htrim, hlower, hscheme, Bool.false_eq_true,
    if_false, urlHostname_clean host hv]

/-- `stripWWW` keeps a valid host valid and only drops the first label. -/
theorem stripWWW_valid (host : Str) (hv : validHostLabels host = true) :
    validHostLabels (stripWWW host) = true ∧
    dsplit '.' (stripWWW host) <:+ dsplit '.' host := by
  rw [stripWWW]
  by_cases hp : ("www.".data).isPrefixOf host = true
  · rw [if_pos hp]
    obtain ⟨t, ht⟩ := List.isPrefixOf_iff_prefix.mp hp
    have hdrop : host.drop 4 = t := by
      rw [← ht, show (4 : ℕ) = ("www.".data).length from rfl, List.drop_left]
    have hsplit : dsplit '.' host = "www".data :: dsplit '.' t := by
      rw [← ht, show "www.".data ++ t = "www".data ++ '.' :: t from rfl,
        dsplit_append_sep '.' _ _ (by decide)]
    obtain ⟨-, hlab⟩ := (validHostLabels_iff host).mp hv
    have htv : ∀ l ∈ dsplit '.' t, l ≠ [] ∧ ∀ c ∈ l, hostLabelChar c = true :=
      fun l hl => hlab l (by rw [hsplit]; exact List.mem_cons_of_mem _ hl)
    have htne : t ≠ [] := by
      rintro rfl
      have := (htv [] (by rw [dsplit]; exact List.mem_singleton.mpr rfl)).1
      exact this rfl
    rw [hdrop, hsplit]
    exact ⟨(validHostLabels_iff t).mpr ⟨htne, htv⟩, List.suffix_cons _ _⟩
  · rw [if_neg hp]
    exact ⟨hv, List.suffix_refl _⟩

/-- Zeta-free restatement of `getDomainModel`. -/
theorem getDomainModel_eq (host : Str) :
    getDomainModel host =
      if validHostLabels host then
        if (dsplit '.' host).length ≤ suffixLen (dsplit '.' host) then none
        else some (joinSep '.' ((dsplit '.' host).drop
          ((dsplit '.' host).length - (suffixLen (dsplit '.' host) + 1))))
      else none := rfl

/-- Zeta-free restatement of `naiveRoot`. -/
theorem naiveRoot_eq (host : Str) :
    naiveRoot host =
      if host = [] then []
      else if (dsplit '.' host).length ≤ 2 then host
      else if twoPartCctlds.contains (joinSep '.' ((dsplit '.' host).drop
            ((dsplit '.' host).length - 2))) ∧ 3 ≤ (dsplit '.' host).length
        then joinSep '.' ((dsplit '.' host).drop ((dsplit '.' host).length - 3))
        else joinSep '.' ((dsplit '.' host).drop ((dsplit '.' host).length - 2)) := rfl

/-- `rootCore` of a valid host is a valid label-suffix of the host and a
fixed point of `rootCore`. -/
theorem rootCore_idem (g : Str) (hv : validHostLabels g = true) :
    validHostLabels (rootCore g) = true ∧
    dsplit '.' (rootCore g) <:+ dsplit '.' g ∧
    rootCore (rootCore g) = rootCore g := by
  have hgne : g ≠ [] := ((validHostLabels_iff g).mp hv).1
  by_cases hlen : (dsplit '.' g).length ≤ suffixLen (dsplit '.' g)
  · have hgd : getDomainModel g = none := by
      rw [getDomainModel_eq, if_pos hv, if_pos hlen]
    have hle2 : (dsplit '.' g).length ≤ 2 := le_trans hlen (suffixLen_le_two _)
    have hr1 : rootCore g = naiveRoot g := by rw [rootCore, hgd]
    have hr : rootCore g = g := by rw [hr1, naiveRoot_eq, if_neg hgne, if_pos hle2]
    rw [hr]
    exact ⟨hv, List.suffix_refl _, hr⟩
  · set k := suffixLen (dsplit '.' g) with hk
    set ss := (dsplit '.' g).drop ((dsplit '.' g).length - (k + 1)) with hssdef
    have hgd : getDomainModel g = some (joinSep '.' ss) := by
      rw [getDomainModel_eq, if_pos hv, if_neg hlen]
    have hr : rootCore g = joinSep '.' ss := by rw [rootCore, hgd]
    have hsuf : ss <:+ dsplit '.' g := List.drop_suffix _ _
    have hlss : ss.length = k + 1 := by
      rw [hssdef, List.length_drop]
      omega
    have hne : ss ≠ [] := by
      intro h0
      rw [h0] at hlss
      simp at hlss
    obtain ⟨hvd, hsplitd⟩ := valid_suffix_labels g ss hv hsuf hne
    have hkss : suffixLen ss = k := suffixLen_suffix _ ss hsuf (by omega)
    have hgd2 : getDomainModel (joinSep '.' ss) = some (joinSep '.' ss) := by
      rw [getDomainModel_eq, if_pos hvd, hsplitd, hkss,
        if_neg (by rw [hlss]; omega), hlss, Nat.sub_self, List.drop_zero]
    have hrr : rootCore (joinSep '.' ss) = joinSep '.' ss := by rw [rootCore, hgd2]
    refine ⟨by rw [hr]; exact hvd, ?_, ?_⟩
    · rw [hr, hsplitd]
      exact hsuf
    · rw [hr]
      exact hrr

/-- Zeta-free restatement of `getRootHost`. -/
theorem getRootHost_eq (hu : Str) :
    getRootHost hu =
      if normalizeHost hu = [] then [] else rootCore (normalizeHost hu) := rfl

/-- Zeta-free restatement of the keywords route's `getRootHost`. -/
theorem kwGetRootHost_eq (host : Str) :
    kwGetRootHost host =
      if host = [] then []
      else if (dsplit '.' host).length ≤ 2 then host
      else joinSep '.' ((dsplit '.' host).drop ((dsplit '.' host).length - 2)) := rfl

theorem getRootHost_valid_eq (h : Str) (hv : validHostLabels h = true) :
    getRootHost h = rootCore (stripWWW h) := by
  have hs := stripWWW_valid h hv
  have hne : stripWWW h ≠ [] := ((validHostLabels_iff _).mp hs.1).1
  rw [getRootHost_eq, normalizeHost_clean h hv, if_neg hne]

theorem stripWWW_no_www (r : Str) (hww : ("www.".data).isPrefixOf r = false) :
    stripWWW r = r := by
  rw [stripWWW, if_neg (by rw [hww]; exact Bool.false_ne_true)]

theorem kwGetRootHost_valid (g : Str) (hv : validHostLabels g = true) :
    validHostLabels (kwGetRootHost g) = true ∧
    (dsplit '.' (kwGetRootHost g)).length ≤ 2 := by
  have hgne : g ≠ [] := ((validHostLabels_iff g).mp hv).1
  rw [kwGetRootHost_eq, if_neg hgne]
  by_cases hlen : (dsplit '.' g).length ≤ 2
  · rw [if_pos hlen]
    exact ⟨hv, hlen⟩
  · rw [if_neg hlen]
    set ss := (dsplit '.' g).drop ((dsplit '.' g).length - 2) with hssdef
    have hsuf : ss <:+ dsplit '.' g := List.drop_suffix _ _
    have hlss : ss.length = 2 := by
      rw [hssdef, List.length_drop]
      omega
    have hne : ss ≠ [] := by
      intro h0
      rw [h0] at hlss
      simp at hlss
    obtain ⟨hvd, hsplitd⟩ := valid_suffix_labels g ss hv hsuf hne
    refine ⟨hvd, ?_⟩
    rw [hsplitd]
    omega

theorem normalizeHost_lower (h g : Str) (he : lowerStr h = lowerStr g) :
    normalizeHost h = normalizeHost g := by
  have h0 : h = [] ↔ g = [] := by
    constructor <;> intro h1
    · have h2 : lowerStr g = [] := by rw [← he, h1]; rfl
      rw [lowerStr] at h2
      exact List.map_eq_nil_iff.mp h2
    · have h2 : lowerStr h = [] := by rw [he, h1]; rfl
      rw [lowerStr] at h2
      exact List.map_eq_nil_iff.mp h2
  by_cases hh : h = []
  · rw [normalizeHost, normalizeHost, if_pos hh, if_pos (h0.mp hh)]
  · have hg : g ≠ [] := fun hg0 => hh (h0.mpr hg0)
    have hlt : lowerStr (trimStr h) = lowerStr (trimStr g) := by
      rw [← trimStr_lowerStr, ← trimStr_lowerStr, he]
    rw [normalizeHost, normalizeHost, if_neg hh, if_neg hg, hlt]

/-- **C4** (counterexample): `RootDomain` is not idempotent — for the valid
host `foo.www.com` both routes' derivations return `www.com`, whose own
root is `com`; and for the malformed input `b d.e?x.com` (space and `?`)
the URL-parse fallback makes the competitors route return `e`, which is
likewise not a fixed point. -/
theorem C4_counterexample_root_not_idempotent :
    getRootHost "foo.www.com".data = "www.com".data ∧
    getRootHost (getRootHost "foo.www.com".data) ≠ getRootHost "foo.www.com".data ∧
    kwRootDomain (kwRootDomain "foo.www.com".data) ≠ kwRootDomain "foo.www.com".data ∧
    getRootHost (getRootHost "b d.e?x.com".data) ≠ getRootHost "b d.e?x.com".data := by
  decide

/-- C4 (amended): on well-formed hostnames (nonempty dot-separated labels
over `[a-z0-9_-]`) whose derived root does not itself start with `www.`,
both routes' `RootDomain` derivations are idempotent; `getRootHost` is
case-insensitive (it depends only on the lower-cased input); and the
spec's example normalizes as claimed. -/
theorem C4_root_derivation :
    (∀ h : Str, validHostLabels h = true →
      ("www.".data).isPrefixOf (getRootHost h) = false →
      getRootHost (getRootHost h) = getRootHost h) ∧
    (∀ h : Str, validHostLabels h = true →
      ("www.".data).isPrefixOf (kwRootDomain h) = false →
      kwRootDomain (kwRootDomain h) = kwRootDomain h) ∧
    (∀ h g : Str, lowerStr h = lowerStr g → getRootHost h = getRootHost g) ∧
    getRootHost "HTTPS://WWW.Example.COM/x".data = "example.com".data := by
  refine ⟨?_, ?_, ?_, by decide⟩
  · intro h hv hww
    have hs := stripWWW_valid h hv
    have hroot := getRootHost_valid_eq h hv
    obtain ⟨hrv, -, hrfix⟩ := rootCore_idem (stripWWW h) hs.1
    rw [← hroot] at hrv hrfix
    have hrne : getRootHost h ≠ [] := ((validHostLabels_iff _).mp hrv).1
    rw [getRootHost_eq, normalizeHost_clean _ hrv, stripWWW_no_www _ hww,
      if_neg hrne, hrfix]
  · intro h hv hww
    have hs := stripWWW_valid h hv
    have hr1 : kwRootDomain h = kwGetRootHost (stripWWW h) := by
      rw [kwRootDomain, normalizeHost_clean h hv]
    obtain ⟨hrv, hrlen⟩ := kwGetRootHost_valid (stripWWW h) hs.1
    rw [← hr1] at hrv hrlen
    have hrne : kwRootDomain h ≠ [] := ((validHostLabels_iff _).mp hrv).1
    rw [kwRootDomain, normalizeHost_clean _ hrv, stripWWW_no_www _ hww,
      kwGetRootHost_eq, if_neg hrne, if_pos hrlen]
  · intro h g he
    rw [getRootHost_eq, getRootHost_eq, normalizeHost_lower h g he]

/-- C4 witness: the amended idempotence and case-insensitivity at concrete
inputs. -/
theorem C4_witness :
    (validHostLabels "shop.example.com".data = true ∧
      ("www.".data).isPrefixOf (getRootHost "shop.example.com".data) = false ∧
      getRootHost (getRootHost "shop.example.com".data) =
        getRootHost "shop.example.com".data) ∧
    (("www.".data).isPrefixOf (kwRootDomain "shop.example.com".data) = false ∧
      kwRootDomain (kwRootDomain "shop.example.com".data) =
        kwRootDomain "shop.example.com".data) ∧
    (lowerStr "Example.COM".data = lowerStr "example.com".data ∧
      getRootHost "Example.COM".data = getRootHost "example.com".data) :=
  ⟨⟨by decide, by decide, C4_root_derivation.1 _ (by decide) (by decide)⟩,
   ⟨by decide, C4_root_derivation.2.1 _ (by decide) (by decide)⟩,
   ⟨by decide, C4_root_derivation.2.2.1 _ _ (by decide)⟩⟩

/-! ## C3 — self-domain check -/

theorem dsplit_append (sep : Char) (a b : Str) :
    dsplit sep (a ++ sep :: b) = dsplit sep a ++ dsplit sep b := by
  induction a with
  | nil =>
      rw [List.nil_append, show dsplit sep [] = [[]] from rfl]
      rw [show dsplit sep (sep :: b) = [] :: dsplit sep b from by
        rw [dsplit, if_pos rfl]]
      rfl
  | cons c a ih =>
      by_cases hc : c = sep
      · subst hc
        rw [List.cons_append, dsplit, if_pos rfl,
          show dsplit c (c :: a) = [] :: dsplit c a from by rw [dsplit, if_pos rfl],
          ih]
        rfl
      · rw [List.cons_append, dsplit, if_neg hc, ih,
          show dsplit sep (c :: a) = (c :: (dsplit sep a).headI) :: (dsplit sep a).tail
            from by rw [dsplit, if_neg hc]]
        cases hd : dsplit sep a with
        | nil => exact absurd hd (dsplit_ne_nil sep a)
        | cons x xs => rfl

theorem joinSep_append (sep : Char) (a b : List Str) (ha : a ≠ []) (hb : b ≠ []) :
    joinSep sep (a ++ b) = joinSep sep a ++ sep :: joinSep sep b := by
  induction a with
  | nil => exact absurd rfl ha
  | cons x a ih =>
      cases a with
      | nil =>
          cases b with
          | nil => exact absurd rfl hb
          | cons y ys => rfl
      | cons x' a' =>
          rw [show (x :: x' :: a') ++ b = x :: (x' :: a' ++ b) from rfl,
            show joinSep sep (x :: (x' :: a' ++ b)) =
              x ++ sep :: joinSep sep (x' :: a' ++ b) from by
                cases a' <;> cases b <;> rfl,
            ih (by simp),
            show joinSep sep (x :: x' :: a') = x ++ sep :: joinSep sep (x' :: a')
              from rfl, List.append_assoc]
          rfl

/-- Either `rootCore` keeps the whole host, or the root has exactly one
label more than its own public-suffix length. -/
theorem rootCore_cases (g : Str) (hv : validHostLabels g = true) :
    rootCore g = g ∨
    (dsplit '.' (rootCore g)).length = suffixLen (dsplit '.' (rootCore g)) + 1 := by
  have hgne : g ≠ [] := ((validHostLabels_iff g).mp hv).1
  by_cases hlen : (dsplit '.' g).length ≤ suffixLen (dsplit '.' g)
  · have hgd : getDomainModel g = none := by
      rw [getDomainModel_eq, if_pos hv, if_pos hlen]
    have hle2 : (dsplit '.' g).length ≤ 2 := le_trans hlen (suffixLen_le_two _)
    have hr1 : rootCore g = naiveRoot g := by rw [rootCore, hgd]
    exact Or.inl (by rw [hr1, naiveRoot_eq, if_neg hgne, if_pos hle2])
  · set k := suffixLen (dsplit '.' g) with hk
    set ss := (dsplit '.' g).drop ((dsplit '.' g).length - (k + 1)) with hssdef
    have hgd : getDomainModel g = some (joinSep '.' ss) := by
      rw [getDomainModel_eq, if_pos hv, if_neg hlen]
    have hr : rootCore g = joinSep '.' ss := by rw [rootCore, hgd]
    have hsuf : ss <:+ dsplit '.' g := List.drop_suffix _ _
    have hlss : ss.length = k + 1 := by
      rw [hssdef, List.length_drop]
      omega
    have hne : ss ≠ [] := by
      intro h0
      rw [h0] at hlss
      simp at hlss
    obtain ⟨-, hsplitd⟩ := valid_suffix_labels g ss hv hsuf hne
    have hkss : suffixLen ss = k := suffixLen_suffix _ ss hsuf (by omega)
    refine Or.inr ?_
    rw [hr, hsplitd, hkss, hlss]

/-- A valid host whose label list ends in the labels of a one-above-suffix
domain `d` has registrable domain exactly `d`. -/
theorem rootCore_of_label_ext (d c : Str) (hvc : validHostLabels c = true)
    (hlen : (dsplit '.' d).length = suffixLen (dsplit '.' d) + 1)
    (hsuf : dsplit '.' d <:+ dsplit '.' c) : rootCore c = d := by
  have hkd : suffixLen (dsplit '.' c) = suffixLen (dsplit '.' d) := by
    refine (suffixLen_suffix (dsplit '.' c) (dsplit '.' d) hsuf ?_).symm.trans rfl
    have := suffixLen_le_two (dsplit '.' c)
    have := suffixLen_pos (dsplit '.' d)
    omega
  have hclen : (dsplit '.' d).length ≤ (dsplit '.' c).length := hsuf.length_le
  have hnotle : ¬((dsplit '.' c).length ≤ suffixLen (dsplit '.' c)) := by
    rw [hkd]
    omega
  have hgd : getDomainModel c = some (joinSep '.' ((dsplit '.' c).drop
      ((dsplit '.' c).length - (suffixLen (dsplit '.' c) + 1)))) := by
    rw [getDomainModel_eq, if_pos hvc, if_neg hnotle]
  obtain ⟨t, ht⟩ := hsuf
  have hdrop : (dsplit '.' c).drop
      ((dsplit '.' c).length - (suffixLen (dsplit '.' c) + 1)) = dsplit '.' d := by
    rw [hkd, ← hlen, ← ht, List.length_append, Nat.add_sub_cancel, List.drop_left]
  rw [rootCore, hgd, hdrop, joinSep_dsplit]

/-- On a canonical host (valid labels, no leading `www.`), `getRootHost`
is just `rootCore`. -/
theorem getRootHost_plain (h : Str) (hv : validHostLabels h = true)
    (hww : ("www.".data).isPrefixOf h = false) : getRootHost h = rootCore h := by
  rw [getRootHost_valid_eq h hv, stripWWW_no_www h hww]

/-- The derived root is the host itself or an inner `.`-separated suffix. -/
theorem dot_root_suffix (r : Str) (hv : validHostLabels r = true)
    (hww : ("www.".data).isPrefixOf r = false) :
    getRootHost r = r ∨ ('.' :: getRootHost r) <:+ r := by
  rw [getRootHost_plain r hv hww]
  obtain ⟨hrv, hrsuf, -⟩ := rootCore_idem r hv
  obtain ⟨t, ht⟩ := hrsuf
  cases t with
  | nil =>
      refine Or.inl ?_
      have h2 : dsplit '.' (rootCore r) = dsplit '.' r := by
        rw [← ht, List.nil_append]
      calc rootCore r = joinSep '.' (dsplit '.' (rootCore r)) :=
            (joinSep_dsplit _ _).symm
        _ = joinSep '.' (dsplit '.' r) := by rw [h2]
        _ = r := joinSep_dsplit _ _
  | cons x xs =>
      refine Or.inr ?_
      have hjr : joinSep '.' ((x :: xs) ++ dsplit '.' (rootCore r)) = r := by
        rw [ht, joinSep_dsplit]
      rw [joinSep_append '.' _ _ (by simp) (dsplit_ne_nil '.' _),
        joinSep_dsplit] at hjr
      exact ⟨joinSep '.' (x :: xs), hjr⟩

/-- Zeta-free restatement of `isSelfDomain`. -/
theorem isSelfDomain_eq (c r : Str) :
    isSelfDomain c r =
      if (normalizeHost c).isEmpty || (normalizeHost r).isEmpty then false
      else if normalizeHost c == normalizeHost r ||
          ('.' :: normalizeHost r).isSuffixOf (normalizeHost c) then true
      else if !(getRootHost (normalizeHost c)).isEmpty &&
          !(getRootHost (normalizeHost r)).isEmpty &&
          (getRootHost (normalizeHost c) == getRootHost (normalizeHost r)) then true
      else if !((dsplit '.' (getRootHost (normalizeHost r))).headI).isEmpty &&
          (normalizeHost c ==
              "about.".data ++ (dsplit '.' (getRootHost (normalizeHost r))).headI ||
           getRootHost (normalizeHost c) ==
              "about.".data ++ (dsplit '.' (getRootHost (normalizeHost r))).headI)
        then true
      else false := rfl

/-- The code's self check as a disjunction, on already-normalized hosts. -/
theorem isSelfDomain_true_iff (c r : Str) (hcne : c ≠ []) (hrne : r ≠ [])
    (hc : normalizeHost c = c) (hr : normalizeHost r = r) :
    isSelfDomain c r = true ↔
      ((c = r ∨ ('.' :: r) <:+ c) ∨
       (getRootHost c ≠ [] ∧ getRootHost r ≠ [] ∧ getRootHost c = getRootHost r) ∨
       (brandOf r ≠ [] ∧
        (c = "about.".data ++ brandOf r ∨
         getRootHost c = "about.".data ++ brandOf r))) := by
  rw [isSelfDomain_eq, hc, hr]
  rw [if_neg (fun h => by
    rw [Bool.or_eq_true] at h
    rcases h with h | h
    · exact hcne (List.isEmpty_iff.mp h)
    · exact hrne (List.isEmpty_iff.mp h))]
  by_cases hA : (c == r || ('.' :: r).isSuffixOf c) = true
  · rw [if_pos hA]
    refine iff_of_true rfl (Or.inl ?_)
    rw [Bool.or_eq_true] at hA
    rcases hA with h | h
    · exact Or.inl (beq_iff_eq.mp h)
    · exact Or.inr (List.isSuffixOf_iff_suffix.mp h)
  · rw [if_neg hA]
    by_cases hB : (!(getRootHost c).isEmpty && !(getRootHost r).isEmpty &&
        (getRootHost c == getRootHost r)) = true
    · rw [if_pos hB]
      rw [Bool.and_eq_true, Bool.and_eq_true, Bool.not_eq_true', Bool.not_eq_true',
        List.isEmpty_eq_false, List.isEmpty_eq_false, beq_iff_eq] at hB
      exact iff_of_true rfl (Or.inr (Or.inl ⟨hB.1.1, hB.1.2, hB.2⟩))
    · rw [if_neg hB]
      by_cases hC : (!((dsplit '.' (getRootHost r)).headI).isEmpty &&
          (c == "about.".data ++ (dsplit '.' (getRootHost r)).headI ||
           getRootHost c ==
             "about.".data ++ (dsplit '.' (getRootHost r)).headI)) = true
      · rw [if_pos hC]
        rw [Bool.and_eq_true, Bool.not_eq_true', List.isEmpty_eq_false,
          Bool.or_eq_true, beq_iff_eq, beq_iff_eq] at hC
        exact iff_of_true rfl (Or.inr (Or.inr hC))
      · rw [if_neg hC]
        refine iff_of_false Bool.false_ne_true ?_
        rw [Bool.or_eq_true, beq_iff_eq, List.isSuffixOf_iff_suffix] at hA
        rw [Bool.and_eq_true, Bool.and_eq_true, Bool.not_eq_true',
          Bool.not_eq_true', List.isEmpty_eq_false, List.isEmpty_eq_false,
          beq_iff_eq] at hB
        rw [Bool.and_eq_true, Bool.not_eq_true', List.isEmpty_eq_false,
          Bool.or_eq_true, beq_iff_eq, beq_iff_eq] at hC
        rintro (h | h | h)
        · exact hA h
        · exact hB ⟨⟨h.1, h.2.1⟩, h.2.2⟩
        · exact hC h

/-- **C3**: on canonical hosts (nonempty labels over the hostname alphabet,
no leading `www.`), the code's self check holds exactly when the candidate
equals the target host, is a subdomain of the target RootDomain, shares
the target's RootDomain, or matches `about.<brand>` (as host or root);
and the spec's four concrete examples behave as claimed for target
`example.com`. -/
theorem C3_self_domain_check :
    (∀ c r : Str, validHostLabels c = true → validHostLabels r = true →
      ("www.".data).isPrefixOf c = false → ("www.".data).isPrefixOf r = false →
      (isSelfDomain c r = true ↔ selfSpecification c r)) ∧
    isSelfDomain "shop.example.com".data "example.com".data = true ∧
    isSelfDomain "example.com".data "example.com".data = true ∧
    isSelfDomain "about.example".data "example.com".data = true ∧
    isSelfDomain "example.net".data "example.com".data = false := by
  refine ⟨?_, by decide, by decide, by decide, by decide⟩
  intro c r hvc hvr hwc hwr
  have hcne : c ≠ [] := ((validHostLabels_iff c).mp hvc).1
  have hrne : r ≠ [] := ((validHostLabels_iff r).mp hvr).1
  have hc : normalizeHost c = c := by
    rw [normalizeHost_clean c hvc, stripWWW_no_www c hwc]
  have hr : normalizeHost r = r := by
    rw [normalizeHost_clean r hvr, stripWWW_no_www r hwr]
  have hbrand : brandOf r ≠ [] := by
    obtain ⟨hrv, -, -⟩ := rootCore_idem r hvr
    rw [brandOf, getRootHost_plain r hvr hwr]
    obtain ⟨-, hlab⟩ := (validHostLabels_iff _).mp hrv
    have hh : (dsplit '.' (rootCore r)).headI ∈ dsplit '.' (rootCore r) := by
      cases hd : dsplit '.' (rootCore r) with
      | nil => exact absurd hd (dsplit_ne_nil _ _)
      | cons a as => exact List.mem_cons_self _ _
    exact (hlab _ hh).1
  rw [isSelfDomain_true_iff c r hcne hrne hc hr, selfSpecification]
  constructor
  · rintro ((h | h) | ⟨h1, h2, h3⟩ | ⟨h1, h2 | h2⟩)
    · exact Or.inl h
    · refine Or.inr (Or.inl ?_)
      rcases dot_root_suffix r hvr hwr with he | hsuf
      · rw [he]
        exact h
      · exact (hsuf.trans (List.suffix_cons '.' r)).trans h
    · exact Or.inr (Or.inr (Or.inl h3))
    · exact Or.inr (Or.inr (Or.inr (Or.inl h2)))
    · exact Or.inr (Or.inr (Or.inr (Or.inr h2)))
  · rintro (h | h | h | h | h)
    · exact Or.inl (Or.inl h)
    · rcases rootCore_cases r hvr with he | hlen
      · have hre : getRootHost r = r := by rw [getRootHost_plain r hvr hwr, he]
        refine Or.inl (Or.inr ?_)
        rw [← hre]
        exact h
      · have hgr : getRootHost r = rootCore r := getRootHost_plain r hvr hwr
        obtain ⟨hrv, -, -⟩ := rootCore_idem r hvr
        obtain ⟨y, hy⟩ := h
        have hsplit : dsplit '.' c = dsplit '.' y ++ dsplit '.' (getRootHost r) := by
          rw [← hy, dsplit_append]
        have hsufl : dsplit '.' (getRootHost r) <:+ dsplit '.' c := by
          rw [hsplit]
          exact List.suffix_append _ _
        have hroot : rootCore c = getRootHost r := by
          refine rootCore_of_label_ext (getRootHost r) c hvc ?_ hsufl
          rw [hgr]
          exact hlen
        have hgc : getRootHost c = getRootHost r := by
          rw [getRootHost_plain c hvc hwc, hroot]
        refine Or.inr (Or.inl ⟨?_, ?_, hgc⟩)
        · rw [hgc, hgr]
          exact ((validHostLabels_iff _).mp hrv).1
        · rw [hgr]
          exact ((validHostLabels_iff _).mp hrv).1
    · obtain ⟨hcv, -, -⟩ := rootCore_idem c hvc
      obtain ⟨hrv, -, -⟩ := rootCore_idem r hvr
      refine Or.inr (Or.inl ⟨?_, ?_, h⟩)
      · rw [getRootHost_plain c hvc hwc]
        exact ((validHostLabels_iff _).mp hcv).1
      · rw [getRootHost_plain r hvr hwr]
        exact ((validHostLabels_iff _).mp hrv).1
    · exact Or.inr (Or.inr ⟨hbrand, Or.inl h⟩)
    · exact Or.inr (Or.inr ⟨hbrand, Or.inr h⟩)

/-- C3 witness: the equivalence applied to `shop.example.com` vs
`example.com`. -/
theorem C3_witness :
    validHostLabels "shop.example.com".data = true ∧
    validHostLabels "example.com".data = true ∧
    ("www.".data).isPrefixOf "shop.example.com".data = false ∧
    ("www.".data).isPrefixOf "example.com".data = false ∧
    (isSelfDomain "shop.example.com".data "example.com".data = true ↔
      selfSpecification "shop.example.com".data "example.com".data) :=
  ⟨by decide, by decide, by decide, by decide,
   C3_self_domain_check.1 _ _ (by decide) (by decide) (by decide) (by decide)⟩

/-! ## C6/C8 — single-flight coalescing and in-flight lifecycle -/

theorem set_lookup {α : Type} (l : List α) (i j : ℕ) (x y : α)
    (h : (l.set i x)[j]? = some y) : l[j]? = some y ∨ (i = j ∧ y = x) := by
  rw [List.getElem?_set] at h
  by_cases hij : i = j
  · rw [if_pos hij] at h
    by_cases hlt : i < l.length
    · rw [if_pos hlt] at h
      exact Or.inr ⟨hij, (Option.some_inj.mp h).symm⟩
    · rw [if_neg hlt] at h
      exact absurd h (by simp)
  · rw [if_neg hij] at h
    exact Or.inl h

theorem map_lookup {α β : Type} (f : α → β) (l : List α) (j : ℕ) (y : β)
    (h : (l.map f)[j]? = some y) : ∃ q, l[j]? = some q ∧ f q = y := by
  rw [List.getElem?_map] at h
  cases hq : l[j]? with
  | none => rw [hq] at h; exact absurd h (by simp)
  | some q => rw [hq] at h; exact ⟨q, rfl, Option.some_inj.mp h⟩

theorem map_lookup_fwd {α β : Type} (f : α → β) (l : List α) (j : ℕ) (q : α)
    (h : l[j]? = some q) : (l.map f)[j]? = some (f q) := by
  rw [List.getElem?_map, h]
  rfl

theorem concat_lookup {α : Type} (l : List α) (x : α) (j : ℕ) (y : α)
    (h : (l ++ [x])[j]? = some y) :
    (j < l.length ∧ l[j]? = some y) ∨ (j = l.length ∧ y = x) := by
  rw [List.getElem?_append] at h
  by_cases hlt : j < l.length
  · rw [if_pos hlt] at h
    exact Or.inl ⟨hlt, h⟩
  · rw [if_neg hlt] at h
    cases hd : j - l.length with
    | zero =>
        rw [hd] at h
        exact Or.inr ⟨by omega, by simpa using h.symm⟩
    | succ n =>
        rw [hd] at h
        simp at h

/-- The inductive invariant of the single-flight model: the marker points
at a running computation and vice versa, cached and answered values come
from a succeeded computation, awaiters wait on running computations,
every running computation has an awaiter, nothing succeeds without being
cached, every failed computation has produced an errored request, and at
most one computation is not failed. -/
structure SFInv (s : SFState) : Prop where
  marker_running : ∀ c : ℕ, s.inflight = some c → s.comps[c]? = some  CompStatus.running
  running_marker : ∀ c : ℕ, s.comps[c]? = some  CompStatus.running → s.inflight = some c
  cache_succ : ∀ v : ℕ, s.cache = some v → ∃ c : ℕ, s.comps[c]? = some (CompStatus.succeeded v)
  answered_succ : ∀ i v : ℕ, s.reqs[i]? = some (ReqState.answered v) →
    ∃ c : ℕ, s.comps[c]? = some (CompStatus.succeeded v)
  awaiting_running : ∀ i c : ℕ, s.reqs[i]? = some (ReqState.awaiting c) →
    s.comps[c]? = some  CompStatus.running
  running_awaited : ∀ c : ℕ, s.comps[c]? = some  CompStatus.running →
    ∃ i : ℕ, s.reqs[i]? = some (ReqState.awaiting c)
  nocache_nosucc : s.cache = none → ∀ c v : ℕ, s.comps[c]? ≠ some (CompStatus.succeeded v)
  failed_errored : ∀ c : ℕ, s.comps[c]? = some  CompStatus.failed →
    ∃ i : ℕ, s.reqs[i]? = some  ReqState.errored
  nonfailed_unique : ∀ (c c' : ℕ) (x y : CompStatus), s.comps[c]? = some x → s.comps[c']? = some y →
    x ≠  CompStatus.failed → y ≠  CompStatus.failed → c = c'

theorem sfInit2_inv : SFInv sfInit2 where
  marker_running := fun c h => by simp [sfInit2] at h
  running_marker := fun c h => by simp [sfInit2] at h
  cache_succ := fun v h => by simp [sfInit2] at h
  answered_succ := fun i v h => by
    rcases i with _ | _ | i <;> simp [sfInit2] at h
  awaiting_running := fun i c h => by
    rcases i with _ | _ | i <;> simp [sfInit2] at h
  running_awaited := fun c h => by simp [sfInit2] at h
  nocache_nosucc := fun _ c v h => by simp [sfInit2] at h
  failed_errored := fun c h => by simp [sfInit2] at h
  nonfailed_unique := fun c c' x y hx _ _ _ => by simp [sfInit2] at hx

/-- The invariant is preserved by every transition. -/
theorem sfInv_step {s t : SFState} (h : SFStep s t) (inv : SFInv s) : SFInv t := by
  cases h with
  | hit i v hi hv =>
      refine ⟨inv.marker_running, inv.running_marker, inv.cache_succ, ?_, ?_, ?_,
        inv.nocache_nosucc, ?_, inv.nonfailed_unique⟩
      · intro j w hw
        rcases set_lookup _ _ _ _ _ hw with h' | ⟨-, hx⟩
        · exact inv.answered_succ j w h'
        · injection hx with hwv
          subst hwv
          exact inv.cache_succ w hv
      · intro j c hj
        rcases set_lookup _ _ _ _ _ hj with h' | ⟨-, hx⟩
        · exact inv.awaiting_running j c h'
        · simp at hx
      · intro c hc
        obtain ⟨j, hj⟩ := inv.running_awaited c hc
        have hij : i ≠ j := fun he => by
          rw [he] at hi
          exact absurd (hi.symm.trans hj) (by simp)
        exact ⟨j, by rw [List.getElem?_set_ne hij]; exact hj⟩
      · intro c hc
        obtain ⟨j, hj⟩ := inv.failed_errored c hc
        have hij : i ≠ j := fun he => by
          rw [he] at hi
          exact absurd (hi.symm.trans hj) (by simp)
        exact ⟨j, by rw [List.getElem?_set_ne hij]; exact hj⟩
  | join i c0 hi hcn hifl =>
      refine ⟨inv.marker_running, inv.running_marker, inv.cache_succ, ?_, ?_, ?_,
        inv.nocache_nosucc, ?_, inv.nonfailed_unique⟩
      · intro j w hw
        rcases set_lookup _ _ _ _ _ hw with h' | ⟨-, hx⟩
        · exact inv.answered_succ j w h'
        · simp at hx
      · intro j c hj
        rcases set_lookup _ _ _ _ _ hj with h' | ⟨-, hx⟩
        · exact inv.awaiting_running j c h'
        · injection hx with hcc
          subst hcc
          exact inv.marker_running c hifl
      · intro c hc
        obtain ⟨j, hj⟩ := inv.running_awaited c hc
        have hij : i ≠ j := fun he => by
          rw [he] at hi
          exact absurd (hi.symm.trans hj) (by simp)
        exact ⟨j, by rw [List.getElem?_set_ne hij]; exact hj⟩
      · intro c hc
        obtain ⟨j, hj⟩ := inv.failed_errored c hc
        have hij : i ≠ j := fun he => by
          rw [he] at hi
          exact absurd (hi.symm.trans hj) (by simp)
        exact ⟨j, by rw [List.getElem?_set_ne hij]; exact hj⟩
  | start i hi hcn hifn =>
      have hnorun : ∀ c, s.comps[c]? ≠ some CompStatus.running := fun c hc => by
        have := inv.running_marker c hc
        rw [hifn] at this
        exact absurd this (by simp)
      have hilt : i < s.reqs.length := (List.getElem?_eq_some.mp hi).1
      have hnewc : (s.comps ++ [CompStatus.running])[s.comps.length]? =
          some CompStatus.running := List.getElem?_concat_length _ _
      have hnewr : (s.reqs.set i (ReqState.awaiting s.comps.length))[i]? =
          some (ReqState.awaiting s.comps.length) := by
        rw [List.getElem?_set, if_pos rfl, if_pos hilt]
      refine ⟨?_, ?_, ?_, ?_, ?_, ?_, ?_, ?_, ?_⟩
      · intro c hc
        injection hc with hcc
        subst hcc
        exact hnewc
      · intro c hc
        rcases concat_lookup _ _ _ _ hc with ⟨-, hold⟩ | ⟨he, -⟩
        · exact absurd hold (hnorun c)
        · rw [he]
      · intro v hv
        rw [hcn] at hv
        exact absurd hv (by simp)
      · intro j w hw
        rcases set_lookup _ _ _ _ _ hw with h' | ⟨-, hx⟩
        · obtain ⟨c, hcs⟩ := inv.answered_succ j w h'
          exact absurd hcs (inv.nocache_nosucc hcn c w)
        · simp at hx
      · intro j c hj
        rcases set_lookup _ _ _ _ _ hj with h' | ⟨-, hx⟩
        · exact absurd (inv.awaiting_running j c h') (hnorun c)
        · injection hx with hcc
          subst hcc
          exact hnewc
      · intro c hc
        rcases concat_lookup _ _ _ _ hc with ⟨-, hold⟩ | ⟨he, -⟩
        · exact absurd hold (hnorun c)
        · exact ⟨i, by rw [he]; exact hnewr⟩
      · intro _ c v hcs
        rcases concat_lookup _ _ _ _ hcs with ⟨-, hold⟩ | ⟨-, hx⟩
        · exact absurd hold (inv.nocache_nosucc hcn c v)
        · simp at hx
      · intro c hc
        rcases concat_lookup _ _ _ _ hc with ⟨-, hold⟩ | ⟨-, hx⟩
        · obtain ⟨j, hj⟩ := inv.failed_errored c hold
          have hij : i ≠ j := fun he => by
            rw [he] at hi
            exact absurd (hi.symm.trans hj) (by simp)
          exact ⟨j, by rw [List.getElem?_set_ne hij]; exact hj⟩
        · simp at hx
      · intro c c' x y hx hy hxf hyf
        rcases concat_lookup _ _ _ _ hx with ⟨-, hox⟩ | ⟨hex, -⟩ <;>
          rcases concat_lookup _ _ _ _ hy with ⟨-, hoy⟩ | ⟨hey, -⟩
        · cases x with
          | running => exact absurd hox (hnorun c)
          | succeeded w => exact absurd hox (inv.nocache_nosucc hcn c w)
          | failed => exact absurd rfl hxf
        · cases x with
          | running => exact absurd hox (hnorun c)
          | succeeded w => exact absurd hox (inv.nocache_nosucc hcn c w)
          | failed => exact absurd rfl hxf
        · cases y with
          | running => exact absurd hoy (hnorun c')
          | succeeded w => exact absurd hoy (inv.nocache_nosucc hcn c' w)
          | failed => exact absurd rfl hyf
        · rw [hex, hey]
  | finishOk c v hc =>
      have hclt : c < s.comps.length := (List.getElem?_eq_some.mp hc).1
      have honerun : ∀ c', s.comps[c']? = some CompStatus.running → c' = c := by
        intro c' hc'
        have h1 := inv.running_marker c' hc'
        have h2 := inv.running_marker c hc
        rw [h2] at h1
        exact (Option.some_inj.mp h1).symm
      have hsetc : (s.comps.set c (CompStatus.succeeded v))[c]? =
          some (CompStatus.succeeded v) := by
        rw [List.getElem?_set, if_pos rfl, if_pos hclt]
      refine ⟨?_, ?_, ?_, ?_, ?_, ?_, ?_, ?_, ?_⟩
      · intro c' hc'
        exact absurd hc' (by simp)
      · intro c' hc'
        rcases set_lookup _ _ _ _ _ hc' with hold | ⟨-, hx⟩
        · have he := honerun c' hold
          subst he
          rw [hsetc] at hc'
          exact absurd hc' (by simp)
        · simp at hx
      · intro w hw
        injection hw with hwv
        subst hwv
        exact ⟨c, hsetc⟩
      · intro j w hw
        obtain ⟨q, hq, hfq⟩ := map_lookup _ _ _ _ hw
        by_cases hqa : q = ReqState.awaiting c
        · rw [if_pos hqa] at hfq
          injection hfq with hwv
          subst hwv
          exact ⟨c, hsetc⟩
        · rw [if_neg hqa] at hfq
          subst hfq
          obtain ⟨c0, hc0⟩ := inv.answered_succ j w hq
          have hc0c : c0 ≠ c := fun he => by
            rw [he, hc] at hc0
            exact absurd hc0 (by simp)
          exact ⟨c0, by rw [List.getElem?_set_ne (fun he => hc0c he.symm)]; exact hc0⟩
      · intro j c' hj
        obtain ⟨q, hq, hfq⟩ := map_lookup _ _ _ _ hj
        by_cases hqa : q = ReqState.awaiting c
        · rw [if_pos hqa] at hfq
          simp at hfq
        · rw [if_neg hqa] at hfq
          subst hfq
          have hrun := inv.awaiting_running j c' hq
          have := honerun c' hrun
          subst this
          exact absurd rfl hqa
      · intro c' hc'
        rcases set_lookup _ _ _ _ _ hc' with hold | ⟨-, hx⟩
        · have he := honerun c' hold
          subst he
          rw [hsetc] at hc'
          exact absurd hc' (by simp)
        · simp at hx
      · intro h0
        exact absurd h0 (by simp)
      · intro c' hc'
        rcases set_lookup _ _ _ _ _ hc' with hold | ⟨-, hx⟩
        · obtain ⟨j, hj⟩ := inv.failed_errored c' hold
          refine ⟨j, ?_⟩
          have := map_lookup_fwd
            (fun q => if q = ReqState.awaiting c then ReqState.answered v else q)
            s.reqs j ReqState.errored hj
          simpa using this
        · simp at hx
      · intro a b x y hx hy hxf hyf
        rcases set_lookup _ _ _ _ _ hx with hoa | ⟨hea, -⟩ <;>
          rcases set_lookup _ _ _ _ _ hy with hob | ⟨heb, -⟩
        · exact inv.nonfailed_unique a b x y hoa hob hxf hyf
        · rw [← heb]
          exact inv.nonfailed_unique a c x CompStatus.running hoa hc hxf (by simp)
        · rw [← hea]
          exact (inv.nonfailed_unique b c y CompStatus.running hob hc hyf (by simp)).symm
        · rw [← hea, ← heb]
  | finishErr c hc =>
      have hclt : c < s.comps.length := (List.getElem?_eq_some.mp hc).1
      have honerun : ∀ c', s.comps[c']? = some CompStatus.running → c' = c := by
        intro c' hc'
        have h1 := inv.running_marker c' hc'
        have h2 := inv.running_marker c hc
        rw [h2] at h1
        exact (Option.some_inj.mp h1).symm
      have hsetc : (s.comps.set c CompStatus.failed)[c]? =
          some CompStatus.failed := by
        rw [List.getElem?_set, if_pos rfl, if_pos hclt]
      refine ⟨?_, ?_, ?_, ?_, ?_, ?_, ?_, ?_, ?_⟩
      · intro c' hc'
        exact absurd hc' (by simp)
      · intro c' hc'
        rcases set_lookup _ _ _ _ _ hc' with hold | ⟨-, hx⟩
        · have he := honerun c' hold
          subst he
          rw [hsetc] at hc'
          exact absurd hc' (by simp)
        · simp at hx
      · intro w hw
        obtain ⟨c0, hc0⟩ := inv.cache_succ w hw
        have hc0c : c0 ≠ c := fun he => by
          rw [he, hc] at hc0
          exact absurd hc0 (by simp)
        exact ⟨c0, by rw [List.getElem?_set_ne (fun he => hc0c he.symm)]; exact hc0⟩
      · intro j w hw
        obtain ⟨q, hq, hfq⟩ := map_lookup _ _ _ _ hw
        by_cases hqa : q = ReqState.awaiting c
        · rw [if_pos hqa] at hfq
          simp at hfq
        · rw [if_neg hqa] at hfq
          subst hfq
          obtain ⟨c0, hc0⟩ := inv.answered_succ j w hq
          have hc0c : c0 ≠ c := fun he => by
            rw [he, hc] at hc0
            exact absurd hc0 (by simp)
          exact ⟨c0, by rw [List.getElem?_set_ne (fun he => hc0c he.symm)]; exact hc0⟩
      · intro j c' hj
        obtain ⟨q, hq, hfq⟩ := map_lookup _ _ _ _ hj
        by_cases hqa : q = ReqState.awaiting c
        · rw [if_pos hqa] at hfq
          simp at hfq
        · rw [if_neg hqa] at hfq
          subst hfq
          have hrun := inv.awaiting_running j c' hq
          have := honerun c' hrun
          subst this
          exact absurd rfl hqa
      · intro c' hc'
        rcases set_lookup _ _ _ _ _ hc' with hold | ⟨-, hx⟩
        · have he := honerun c' hold
          subst he
          rw [hsetc] at hc'
          exact absurd hc' (by simp)
        · simp at hx
      · intro h0 c' w hcs
        rcases set_lookup _ _ _ _ _ hcs with hold | ⟨-, hx⟩
        · exact absurd hold (inv.nocache_nosucc h0 c' w)
        · simp at hx
      · intro c' hc'
        rcases set_lookup _ _ _ _ _ hc' with hold | ⟨he, -⟩
        · obtain ⟨j, hj⟩ := inv.failed_errored c' hold
          refine ⟨j, ?_⟩
          have := map_lookup_fwd
            (fun q => if q = ReqState.awaiting c then ReqState.errored else q)
            s.reqs j ReqState.errored hj
          simpa using this
        · obtain ⟨j, hj⟩ := inv.running_awaited c hc
          refine ⟨j, ?_⟩
          have := map_lookup_fwd
            (fun q => if q = ReqState.awaiting c then ReqState.errored else q)
            s.reqs j (ReqState.awaiting c) hj
          simpa using this
      · intro a b x y hx hy hxf hyf
        rcases set_lookup _ _ _ _ _ hx with hoa | ⟨-, hea⟩
        · rcases set_lookup _ _ _ _ _ hy with hob | ⟨-, heb⟩
          · exact inv.nonfailed_unique a b x y hoa hob hxf hyf
          · exact absurd heb hyf
        · exact absurd hea hxf

theorem sfInv_reaches {s t : SFState} (h : SFReaches s t) (inv : SFInv s) :
    SFInv t := by
  induction h with
  | refl => exact inv
  | tail t u hst htu ih => exact sfInv_step htu ih

/-- **C6**: in every execution of the two-request single-flight model that
starts with an empty cache, no marker and no computation, if both requests
have been answered then exactly one underlying computation was ever
started and both requests hold its (identical) value. -/
theorem C6_single_flight :
    ∀ (t : SFState) (v0 v1 : ℕ), SFReaches sfInit2 t →
      t.reqs = [ReqState.answered v0, ReqState.answered v1] →
      t.comps.length = 1 ∧ v0 = v1 := by
  intro t v0 v1 hr hreq
  have inv : SFInv t := sfInv_reaches hr sfInit2_inv
  have h0 : t.reqs[0]? = some (ReqState.answered v0) := by rw [hreq]; rfl
  have h1 : t.reqs[1]? = some (ReqState.answered v1) := by rw [hreq]; rfl
  obtain ⟨c0, hc0⟩ := inv.answered_succ 0 v0 h0
  obtain ⟨c1, hc1⟩ := inv.answered_succ 1 v1 h1
  have hcc : c0 = c1 :=
    inv.nonfailed_unique c0 c1 _ _ hc0 hc1 (by simp) (by simp)
  subst hcc
  have hv : v0 = v1 := by
    rw [hc0] at hc1
    simp only [Option.some_inj, CompStatus.succeeded.injEq] at hc1
    exact hc1
  refine ⟨?_, hv⟩
  have hlt : c0 < t.comps.length := (List.getElem?_eq_some.mp hc0).1
  have hnf : ∀ c : ℕ, t.comps[c]? ≠ some CompStatus.failed := by
    intro c hcf
    obtain ⟨j, hj⟩ := inv.failed_errored c hcf
    rw [hreq] at hj
    rcases j with _ | _ | j <;> simp at hj
  have hall : ∀ c, c < t.comps.length → c = c0 := by
    intro c hc
    have hx : t.comps[c]? = some t.comps[c] :=
      List.getElem?_eq_some.mpr ⟨hc, rfl⟩
    have hxf : t.comps[c] ≠ CompStatus.failed := fun he => hnf c (he ▸ hx)
    exact inv.nonfailed_unique c c0 _ _ hx hc0 hxf (by simp)
  by_contra hne
  have h2 : 2 ≤ t.comps.length := by omega
  have e0 := hall 0 (by omega)
  have e1 := hall 1 (by omega)
  omega

/-- C6 witness: the trace start, join, succeed reaches the state where
one computation exists and both requests hold its value 42. -/
theorem C6_witness :
    SFReaches sfInit2
      ⟨some 42, none, [CompStatus.succeeded 42],
       [ReqState.answered 42, ReqState.answered 42]⟩ ∧
    ((⟨some 42, none, [CompStatus.succeeded 42],
       [ReqState.answered 42, ReqState.answered 42]⟩ : SFState).comps.length = 1 ∧
     (42 : ℕ) = 42) := by
  have h1 : SFStep sfInit2
      ⟨none, some 0, [CompStatus.running], [ReqState.awaiting 0, ReqState.pending]⟩ :=
    SFStep.start sfInit2 0 rfl rfl rfl
  have h2 : SFStep
      ⟨none, some 0, [CompStatus.running], [ReqState.awaiting 0, ReqState.pending]⟩
      ⟨none, some 0, [CompStatus.running],
       [ReqState.awaiting 0, ReqState.awaiting 0]⟩ :=
    SFStep.join _ 1 0 rfl rfl rfl
  have h3 : SFStep
      ⟨none, some 0, [CompStatus.running],
       [ReqState.awaiting 0, ReqState.awaiting 0]⟩
      ⟨some 42, none, [CompStatus.succeeded 42],
       [ReqState.answered 42, ReqState.answered 42]⟩ :=
    SFStep.finishOk _ 0 42 rfl
  have hreach : SFReaches sfInit2
      ⟨some 42, none, [CompStatus.succeeded 42],
       [ReqState.answered 42, ReqState.answered 42]⟩ :=
    .tail _ _ _ (.tail _ _ _ (.tail _ _ _ (.refl _) h1) h2) h3
  exact ⟨hreach, C6_single_flight _ 42 42 hreach rfl⟩

/-- **C8**: in every reachable state of the single-flight model the
in-flight marker points only at a computation that is still running (so
it is gone as soon as the computation finishes, with success or failure),
at most one computation is running at any time, and after a failure the
next request starts a fresh computation: the state with one failed and
one new running computation is reachable. -/
theorem C8_inflight_lifecycle :
    (∀ s : SFState, SFReaches sfInit2 s →
      ∀ c, s.inflight = some c → s.comps[c]? = some CompStatus.running) ∧
    (∀ s : SFState, SFReaches sfInit2 s →
      ∀ c c' : ℕ, s.comps[c]? = some CompStatus.running →
        s.comps[c']? = some CompStatus.running → c = c') ∧
    SFReaches sfInit2
      ⟨none, some 1, [CompStatus.failed, CompStatus.running],
       [ReqState.errored, ReqState.awaiting 1]⟩ := by
  refine ⟨?_, ?_, ?_⟩
  · intro s hr c hc
    exact (sfInv_reaches hr sfInit2_inv).marker_running c hc
  · intro s hr c c' hc hc'
    have inv := sfInv_reaches hr sfInit2_inv
    have h1 := inv.running_marker c hc
    have h2 := inv.running_marker c' hc'
    rw [h1] at h2
    exact Option.some_inj.mp h2
  · have h1 : SFStep sfInit2
        ⟨none, some 0, [CompStatus.running],
         [ReqState.awaiting 0, ReqState.pending]⟩ :=
      SFStep.start sfInit2 0 rfl rfl rfl
    have h2 : SFStep
        ⟨none, some 0, [CompStatus.running],
         [ReqState.awaiting 0, ReqState.pending]⟩
        ⟨none, none, [CompStatus.failed], [ReqState.errored, ReqState.pending]⟩ :=
      SFStep.finishErr _ 0 rfl
    have h3 : SFStep
        ⟨none, none, [CompStatus.failed], [ReqState.errored, ReqState.pending]⟩
        ⟨none, some 1, [CompStatus.failed, CompStatus.running],
         [ReqState.errored, ReqState.awaiting 1]⟩ :=
      SFStep.start _ 1 rfl rfl rfl
    exact .tail _ _ _ (.tail _ _ _ (.tail _ _ _ (.refl _) h1) h2) h3

/-- C8 witness: in the reachable failed-then-retried state the marker
points at the second, still-running computation. -/
theorem C8_witness :
    (⟨none, some 1, [CompStatus.failed, CompStatus.running],
      [ReqState.errored, ReqState.awaiting 1]⟩ : SFState).comps[1]? =
      some CompStatus.running :=
  C8_inflight_lifecycle.1 _ C8_inflight_lifecycle.2.2 1 rfl

end DoctorFizz
